import Mathlib

/-!
# livepeer/transcode-cli : `cmd/transcode/transcode.go`

A shallow embedding of the profile resolver (`parseResolution`, `parseFps`,
`parmsToProfile`), of the output naming helpers (`makeDstName`,
`makeMediaPlaylistDstName`, `makeMediaPlaylistName`, `addPathFrom`, `getBase`)
and of the segment loop of `transcode`, together with the Go standard library
functions they call (`strings.Split`, `strings.TrimSuffix`, `strconv.Atoi`,
`strconv.ParseInt`, `strconv.ParseUint`, `path/filepath` on a Unix target).

Conventions.
* A Go `string` is a sequence of bytes; it is modelled as `List Char`.  Every
  function below inspects only ASCII bytes (`x`, `/`, `.`, `+`, `-`, digits), and
  in UTF-8 no byte of a non-ASCII character is an ASCII byte, so scanning the
  characters and scanning the bytes agree.
* Go `int` is the 64 bit signed integer of the supported targets.  Conversions
  and products that can leave the range are reduced with `wrapInt64`.
* A Go function returning `(values, error)` is modelled with `Except GoError`.
* The `float64` arithmetic of `time.Duration.Seconds` is modelled exactly, on
  mantissa and exponent pairs, with round to nearest, ties to even.
-/

namespace TranscodeCli

set_option linter.dupNamespace false
set_option maxRecDepth 4000

/-- A Go string, as the sequence of its characters. -/
abbrev GoString := List Char

/-- A Go byte slice; only its length and identity matter here. -/
abbrev Bytes := List UInt8

/-- The two sentinel causes carried by a `*strconv.NumError`. -/
inductive NumErrKind
  | ErrSyntax
  | ErrRange
  deriving DecidableEq, Repr

/-- Error values that the modelled code can return. -/
inductive GoError
  /-- `errResolution = errors.New("InvalidResolution")` -/
  | errResolution
  /-- `errH264Profile = errors.New("InvalidH264Profile")` -/
  | errH264Profile
  /-- `&strconv.NumError{Func, Num, Err}` -/
  | numError (func : String) (num : GoString) (err : NumErrKind)
  /-- `fmt.Errorf(msg + " %w", inner)` -/
  | wrapped (msg : String) (inner : GoError)
  /-- `fmt.Errorf(msg)` without operands -/
  | message (msg : String)
  /-- `io.EOF` -/
  | EOF
  /-- an error value produced by an external collaborator -/
  | external (code : Nat)
  deriving DecidableEq, Repr

deriving instance DecidableEq for Except

/-- Number of bits of a Go `int` (`strconv.IntSize`). -/
def intSize : Nat := 64

/-- Reduction of a mathematical integer to the value of the `int64` with the
same low 64 bits. -/
def wrapInt64 (x : Int) : Int :=
  let r := x % 18446744073709551616
  if r < 9223372036854775808 then r else r - 18446744073709551616

/-- Conversion `int(u)` of a `uint64`. -/
def intOfUint64 (u : Nat) : Int := wrapInt64 (u : Int)

namespace strings

/-- `strings.Split(s, sep)` for a separator of one ASCII character: the
substrings between the occurrences of `sep`, in order. -/
def Split : GoString → Char → List GoString
  | [], _ => [[]]
  | c :: cs, sep =>
    if c = sep then [] :: Split cs sep
    else
      match Split cs sep with
      | [] => [[c]]
      | p :: ps => (c :: p) :: ps

/-- `strings.HasSuffix(s, suffix)`. -/
def HasSuffix (s suffix : GoString) : Bool :=
  decide (suffix.length ≤ s.length) && (s.drop (s.length - suffix.length) == suffix)

/-- `strings.TrimSuffix(s, suffix)`. -/
def TrimSuffix (s suffix : GoString) : GoString :=
  if HasSuffix s suffix then s.take (s.length - suffix.length) else s

end strings

namespace strconv

/-- Test `'0' <= c && c <= '9'`. -/
def isDigit (c : Char) : Bool := decide (48 ≤ c.toNat) && decide (c.toNat ≤ 57)

/-- Value `c - '0'` of a digit. -/
def digitVal (c : Char) : Nat := c.toNat - 48

/-- `maxUint64`. -/
def maxUint64 : Nat := 18446744073709551615

/-- The digit loop of `strconv.ParseUint` for base 10, started with
accumulator `n`.  A byte that is not a decimal digit is a syntax error (a
letter has digit value at least 10, the base; `_` is accepted for base 0
only).  `cutoff = maxUint64/10 + 1`; `n1` is computed in `uint64`. -/
def parseUintLoop (maxVal : Nat) : List Char → Nat → Except NumErrKind Nat
  | [], n => .ok n
  | c :: cs, n =>
    if isDigit c then
      if n ≥ maxUint64 / 10 + 1 then .error .ErrRange
      else
        let n10 := n * 10
        let n1 := (n10 + digitVal c) % 18446744073709551616
        if n1 < n10 ∨ n1 > maxVal then .error .ErrRange
        else parseUintLoop maxVal cs n1
    else .error .ErrSyntax

/-- `strconv.ParseUint(s, 10, bitSize)`; `bitSize = 0` stands for `IntSize`.
On `ErrRange` the Go function returns the value `maxVal`. -/
def ParseUint (s : GoString) (bitSize : Nat) : Except NumErrKind Nat :=
  if s = [] then .error .ErrSyntax
  else
    let bitSize := if bitSize = 0 then intSize else bitSize
    parseUintLoop (2 ^ bitSize - 1) s 0

/-- `strconv.ParseInt(s, 10, bitSize)`. -/
def ParseInt (s : GoString) (bitSize : Nat) : Except NumErrKind Int :=
  match s with
  | [] => .error .ErrSyntax
  | c :: cs =>
    let neg := decide (c = '-')
    let body := if c = '+' ∨ c = '-' then cs else s
    let bits := if bitSize = 0 then intSize else bitSize
    let step (un : Nat) : Except NumErrKind Int :=
      let cutoff := 2 ^ (bits - 1)
      if !neg && decide (un ≥ cutoff) then .error .ErrRange
      else if neg && decide (un > cutoff) then .error .ErrRange
      else .ok (if neg then -(un : Int) else (un : Int))
    match ParseUint body bitSize with
    | .error .ErrSyntax => .error .ErrSyntax
    | .error .ErrRange => step (2 ^ bits - 1)
    | .ok un => step un

/-- The digit loop of the fast path of `strconv.Atoi`: at most 18 digits, so
the accumulator stays below `10^18 < 2^63`. -/
def atoiFast : List Char → Int → Option Int
  | [], n => some n
  | c :: cs, n => if isDigit c then atoiFast cs (n * 10 + (digitVal c : Int)) else none

/-- `strconv.Atoi(s)`.  Strings of 1 to 18 bytes take the fast path, the
others go through `ParseInt(s, 10, 0)`; every error is a `NumError` with
`Func = "Atoi"` and `Num = s`.  (The length is counted in characters; a string
with a non-ASCII character gets `ErrSyntax` on either path, fewer than 19 digits
before it being too few for `ErrRange`.) -/
def Atoi (s : GoString) : Except GoError Int :=
  if 0 < s.length ∧ s.length < 19 then
    match s with
    | [] => .error (.numError "Atoi" s .ErrSyntax)
    | c :: cs =>
      let body := if c = '-' ∨ c = '+' then cs else s
      if body.length < 1 then .error (.numError "Atoi" s .ErrSyntax)
      else
        match atoiFast body 0 with
        | none => .error (.numError "Atoi" s .ErrSyntax)
        | some n => .ok (if c = '-' then -n else n)
  else
    match ParseInt s 0 with
    | .error k => .error (.numError "Atoi" s k)
    | .ok i => .ok i

/-- Decimal rendering of an `int`, as `strconv.Itoa` and the verb `%d`
produce it. -/
def Itoa (i : Int) : GoString :=
  if i < 0 then '-' :: Nat.toDigits 10 i.natAbs else Nat.toDigits 10 i.toNat

end strconv

/-- Translation of `parseResolution` (transcode.go, lines 57-71). -/
def parseResolution (resolution : GoString) : Except GoError (Int × Int) :=
  let res := strings.Split resolution 'x'
  match res with
  | r0 :: r1 :: _ =>
    match strconv.Atoi r0 with
    | .error err => .error err
    | .ok w =>
      match strconv.Atoi r1 with
      | .error err => .error err
      | .ok h => .ok (w, h)
  | _ => .error .errResolution

/-- Translation of `parseFps` (transcode.go, lines 73-90). -/
def parseFps (fps : GoString) : Except GoError (Int × Int) :=
  if fps.length = 0 then .ok (0, 0)
  else
    match strings.Split fps '/' with
    | [] => .error (.message "index out of range")  -- not reached: `Split` returns at least one element
    | f0 :: rest =>
      match strconv.ParseUint f0 32 with
      | .error k => .error (.wrapped "error parsing fps" (.numError "ParseUint" f0 k))
      | .ok num =>
        match rest with
        | [] => .ok (intOfUint64 num, intOfUint64 0)
        | f1 :: _ =>
          match strconv.ParseUint f1 32 with
          | .error k => .error (.wrapped "error parsing fps" (.numError "ParseUint" f1 k))
          | .ok den => .ok (intOfUint64 num, intOfUint64 den)

namespace filepath

/-- `os.IsPathSeparator(c)` on a Unix target. -/
def isPathSeparator (c : Char) : Bool := decide (c = '/')

/-- The backwards scan of `filepath.Ext`: `rev` holds the bytes not yet
visited, last byte first, and `acc` the bytes already visited, in order. -/
def extScan : List Char → List Char → GoString
  | [], _ => []
  | c :: rest, acc =>
    if isPathSeparator c then []
    else if c = '.' then c :: acc
    else extScan rest (c :: acc)

/-- `filepath.Ext(path)`: the suffix beginning at the final dot in the final
element of the path; empty if there is no dot. -/
def Ext (path : GoString) : GoString := extScan path.reverse []

/-- The backtracking of `filepath.Clean` at a `..` element: `out` is the
buffer, last byte first; the buffer is cut back to the last separator, but not
below `dotdot`. -/
def cleanBacktrack : List Char → Nat → List Char
  | [], _ => []
  | c :: rest, dotdot =>
    if rest.length > dotdot ∧ ¬ isPathSeparator c then cleanBacktrack rest dotdot else rest

/-- The main loop of `filepath.Clean`: `path` is what is left to read, `out`
the output buffer (last byte first) and `dotdot` the index where `..` must
stop.  Every turn reads at least one byte, and `fuel` bounds the turns. -/
def cleanLoop (rooted : Bool) : Nat → List Char → List Char → Nat → List Char
  | 0, _, out, _ => out
  | _ + 1, [], out, _ => out
  | fuel + 1, c :: cs, out, dotdot =>
    if isPathSeparator c then
      -- empty path element
      cleanLoop rooted fuel cs out dotdot
    else if c = '.' ∧ (cs = [] ∨ cs.head? = some '/') then
      -- . element
      cleanLoop rooted fuel cs out dotdot
    else if c = '.' ∧ cs.head? = some '.' ∧ (cs.tail = [] ∨ cs.tail.head? = some '/') then
      -- .. element: remove to last separator
      if out.length > dotdot then
        cleanLoop rooted fuel cs.tail (cleanBacktrack out dotdot) dotdot
      else if !rooted then
        let out1 := if out.length > 0 then '/' :: out else out
        let out2 := '.' :: '.' :: out1
        cleanLoop rooted fuel cs.tail out2 out2.length
      else
        cleanLoop rooted fuel cs.tail out dotdot
    else
      -- real path element: add slash if needed, copy element
      let out1 :=
        if (rooted ∧ out.length ≠ 1) ∨ (¬ rooted ∧ out.length ≠ 0) then '/' :: out else out
      let elem := (c :: cs).takeWhile (fun b => !isPathSeparator b)
      cleanLoop rooted fuel ((c :: cs).dropWhile (fun b => !isPathSeparator b))
        (elem.reverse ++ out1) dotdot

/-- `filepath.Clean(path)` on a Unix target (no volume name). -/
def Clean (path : GoString) : GoString :=
  match path with
  | [] => ['.']
  | c :: cs =>
    let rooted := isPathSeparator c
    let out :=
      if rooted then cleanLoop rooted (cs.length + 1) cs ['/'] 1
      else cleanLoop rooted (cs.length + 2) (c :: cs) [] 0
    if out.length = 0 then ['.'] else out.reverse

/-- `filepath.Base(path)`: the last element of the path, after removing
trailing separators; `.` for the empty path, `/` for a path of separators. -/
def Base (path : GoString) : GoString :=
  if path = [] then ['.']
  else
    let stripped := (path.reverse.dropWhile isPathSeparator).reverse
    let last := (stripped.reverse.takeWhile (fun b => !isPathSeparator b)).reverse
    if last = [] then ['/'] else last

/-- `filepath.Dir(path)`: `Clean` of the path up to and including its last
separator. -/
def Dir (path : GoString) : GoString :=
  Clean (path.reverse.dropWhile (fun b => !isPathSeparator b)).reverse

/-- `filepath.Join(dir, fn)` for two elements: empty elements are ignored, the
others are joined with a separator and the result is cleaned. -/
def Join (dir fn : GoString) : GoString :=
  if dir ≠ [] then Clean (dir ++ '/' :: fn)
  else if fn ≠ [] then Clean fn
  else []

end filepath

/-- Translation of `makeDstName` (transcode.go, lines 126-133);
`fmt.Sprintf("%s_%d%s", base, i, ext)` is the concatenation. -/
def makeDstName (dst : GoString) (i profiles : Int) : GoString :=
  if profiles = 1 then dst
  else
    let ext := filepath.Ext dst
    let base := strings.TrimSuffix dst ext
    base ++ '_' :: strconv.Itoa i ++ ext

/-- Translation of `makeMediaPlaylistDstName` (transcode.go, lines 135-141). -/
def makeMediaPlaylistDstName (dst mediaName : GoString) : GoString :=
  let ext := filepath.Ext dst
  let base := strings.TrimSuffix dst ext
  base ++ '_' :: mediaName ++ ext

/-- Translation of `makeMediaPlaylistName` (transcode.go, lines 143-149). -/
def makeMediaPlaylistName (dst mediaName : GoString) : GoString :=
  let ext := filepath.Ext dst
  let base := strings.TrimSuffix dst ext
  let base := filepath.Base base
  base ++ '_' :: mediaName

/-- Translation of `addPathFrom` (transcode.go, lines 151-154). -/
def addPathFrom (dst fn : GoString) : GoString :=
  let dir := filepath.Dir dst
  filepath.Join dir fn

/-- Translation of `getBase` (transcode.go, lines 156-160). -/
def getBase (dst : GoString) : GoString :=
  let ext := filepath.Ext dst
  let base := strings.TrimSuffix dst ext
  filepath.Base base


/-- The fields of `livepeer.Profile` (declared in the dependency
`stream-tester/apis/livepeer`) that `transcode.go` reads or writes.  A freshly
allocated profile has the zero value in every field. -/
structure Profile where
  Name : GoString := []
  Width : Int := 0
  Height : Int := 0
  Bitrate : Int := 0
  Fps : Int := 0
  FpsDen : Int := 0
  Gop : GoString := []
  Profile : GoString := []
  deriving DecidableEq, Repr

/-- The map `allowedH264Profiles` (transcode.go, line 48), as its list of
key/value pairs. -/
def allowedH264Profiles : List (GoString × GoString) :=
  [("baseline".toList, "H264Baseline".toList),
   ("main".toList, "H264Main".toList),
   ("high".toList, "H264High".toList)]

/-- Translation of `parmsToProfile` (transcode.go, lines 92-124).  `bitrate`
is a `uint64` and `gop` a `time.Duration` in nanoseconds.  The parameter
`formatSeconds` stands for `strconv.FormatFloat(gop.Seconds(), 'f', 4, 64)`,
a floating point rendering that is not modelled.  The Go code allocates `res`
with `Name` and `Bitrate` and then assigns `Gop`, `Width`, `Height`, `Fps`,
`FpsDen` and `Profile` one after the other; `res` is visible to the caller only
when it is returned, so the record is built once, with the assigned values. -/
def parmsToProfile (formatSeconds : Int → GoString)
    (resolution h264profile frameRate : GoString) (bitrate : Nat) (gop : Int) :
    Except GoError Profile :=
  if bitrate = 0 then .error (.message "should also specify bitrate")
  else
    match parseResolution resolution with
    | .error err => .error err
    | .ok (w, h) =>
      match parseFps frameRate with
      | .error err => .error err
      | .ok (num, den) =>
        let res (hp : GoString) : Profile :=
          { Name := "custom".toList
            Bitrate := wrapInt64 (intOfUint64 bitrate * 1000)
            Gop := if gop > 0 then formatSeconds gop else []
            Width := w
            Height := h
            Fps := num
            FpsDen := den
            Profile := hp }
        if h264profile.length > 0 then
          match allowedH264Profiles.lookup h264profile with
          | none => .error .errH264Profile
          | some hp => .ok (res hp)
        else .ok (res [])

/-! ## The segment loop of `transcode` -/

/-- The fields of `model.HlsSegment` (declared in the dependency
`stream-tester/model`) that `transcode` reads.  `Pts` and `Duration` are
`time.Duration` values, in nanoseconds. -/
structure HlsSegment where
  Err : Option GoError := none
  SeqNo : Int
  Pts : Int := 0
  Duration : Int
  Data : Bytes := []
  deriving DecidableEq, Repr

/-- The fields of `m3u8.MediaSegment` that `transcode` assigns.  The Go field
`Duration` holds the float `seg.Duration.Seconds()`; the model keeps the
`time.Duration` it is computed from. -/
structure MediaSegment where
  SeqId : Nat
  Duration : Int
  URI : GoString
  deriving DecidableEq, Repr

/-- A variant entry of the master playlist: the arguments of
`playList.Append(uri, nil, m3u8.VariantParams{Name, Resolution, Bandwidth})`. -/
structure Variant where
  URI : GoString
  Name : GoString
  Resolution : GoString
  Bandwidth : Nat
  deriving DecidableEq, Repr

/-- The external collaborators of `transcode`, as the results they give:
the Livepeer API client, the segmenter feeding the channel `segmentsIn`, the
file system and the container and playlist libraries.  Output writers are
named by their index in `outFiles`. -/
structure World where
  /-- `lapi.CreateStreamEx(streamName, false, presets, profiles...)`: the id
  of the stream, or an error -/
  CreateStreamEx : List GoString → List Profile → Except GoError GoString
  /-- `segmenter.StartSegmenting(...)`: its error result -/
  StartSegmenting : Option GoError
  /-- the records that the segmenter sends on `segmentsIn` before closing it -/
  segmentsIn : List HlsSegment
  /-- `lapi.PushSegment(stream.ID, seqNo, duration, data)` -/
  PushSegment : Int → Int → Bytes → Except GoError (List Bytes)
  /-- `os.WriteFile(name, data, 0644)`: its error result -/
  WriteFile : GoString → Bytes → Option GoError
  /-- `avutil.Create(name)`: its error result -/
  Create : GoString → Option GoError
  /-- `ts.NewDemuxer(bytes.NewReader(segData)).Streams()`: its error result -/
  Streams : Bytes → Option GoError
  /-- `outFiles[i].WriteHeader(streams)`: its error result -/
  WriteHeader : Nat → Bytes → Option GoError
  /-- `avutil.CopyPackets(outFiles[i], demuxer)`: its error result, `io.EOF`
  when the whole segment was copied -/
  CopyPackets : Nat → Bytes → Option GoError
  /-- `outFiles[i].Close()`: its error result -/
  Close : Nat → Option GoError
  /-- `playList.Encode().Bytes()` of a master playlist -/
  encodeMaster : List Variant → Bytes
  /-- `mpl.Encode().Bytes()` of a media playlist -/
  encodeMedia : List MediaSegment → Bytes

/-- How a call of `transcode` ends. -/
inductive Outcome
  /-- the function returns this `error` (`none` is `nil`) -/
  | returned (err : Option GoError)
  /-- a run-time panic or `panic(err)` -/
  | panicked
  /-- `glog.Fatal`: the process exits -/
  | exited
  deriving DecidableEq, Repr

/-- The variables of `transcode` that the segment loop updates, and the
number of records received from `segmentsIn` so far. -/
structure LoopState where
  err : Option GoError := none
  bandwidths : List Int := []
  mediaSegments : List (List MediaSegment) := []
  writtenFiles : List GoString := []
  consumed : Nat := 0
  deriving DecidableEq, Repr

/-! ### float64 arithmetic

`seg.Duration.Seconds()` is computed in `float64`.  The values that occur are
finite, non-negative and far from the overflow and subnormal ranges, so a
value is kept as a mantissa and a binary exponent, and every operation
returns the exact result rounded to 53 significant bits, ties to even
(IEEE 754 round-to-nearest-even). -/

namespace float64

/-- The quotient `a / b` rounded to the nearest integer, ties to even. -/
def divRoundEven (a b : Nat) : Nat :=
  let q := a / b
  let r := a % b
  if 2 * r < b then q
  else if b < 2 * r then q + 1
  else if q % 2 = 0 then q else q + 1

def log2Fuel : Nat → Nat → Nat
  | 0, _ => 0
  | fuel + 1, n => if n < 2 then 0 else log2Fuel fuel (n / 2) + 1

/-- The position of the leading bit: `floor (log2 n)` for `n > 0`. -/
def log2 (n : Nat) : Nat := log2Fuel n n

/-- A finite non-negative `float64`: the value `mant * 2^exp`. -/
structure F where
  mant : Nat
  exp : Int
  deriving DecidableEq, Repr

/-- The rational value of a `float64`. -/
def F.val (x : F) : ℚ := (x.mant : ℚ) * (2 : ℚ) ^ x.exp

/-- The `float64` nearest to the rational `a / b` (`b > 0`), ties to even:
with `e = floor (log2 (a / b))` the result is the multiple of `2^(e - 52)`
nearest to `a / b`. -/
def round (a b : Nat) : F :=
  if a = 0 then ⟨0, 0⟩
  else
    let e0 : Int := (log2 a : Int) - (log2 b : Int)
    let e : Int := if b * 2 ^ e0.toNat ≤ a * 2 ^ (-e0).toNat then e0 else e0 - 1
    let s : Int := e - 52
    ⟨divRoundEven (a * 2 ^ (-s).toNat) (b * 2 ^ s.toNat), s⟩

/-- The conversion `float64(k)` of a non-negative integer. -/
def ofNat (k : Nat) : F := round k 1

/-- The `float64` quotient `x / y`, for `y` other than zero. -/
def div (x y : F) : F :=
  round (x.mant * 2 ^ (x.exp - y.exp).toNat) (y.mant * 2 ^ (y.exp - x.exp).toNat)

/-- The `float64` sum `x + y`. -/
def add (x y : F) : F :=
  let m : Int := min x.exp y.exp
  let a : Nat := x.mant * 2 ^ (x.exp - m).toNat + y.mant * 2 ^ (y.exp - m).toNat
  round (a * 2 ^ m.toNat) (2 ^ (-m).toNat)

/-- The conversion `int(x)`: the integer part. -/
def trunc (x : F) : Nat := x.mant * 2 ^ x.exp.toNat / 2 ^ (-x.exp).toNat

end float64

/-- The method `time.Duration.Seconds` on a duration of `m ≥ 0` nanoseconds:
`sec := d / Second; nsec := d % Second; return float64(sec) + float64(nsec)/1e9`. -/
def Seconds (m : Nat) : float64.F :=
  float64.add (float64.ofNat (m / 1000000000))
    (float64.div (float64.ofNat (m % 1000000000)) (float64.ofNat 1000000000))

/-- The value `int(d.Seconds())` of a `time.Duration` `d` (line 244): the
`float64` seconds truncated toward zero.  For a negative duration `sec` and
`nsec` are the negated quotient and remainder of `-d`, and rounding is
symmetric, so the result is the negated value for `-d`. -/
def durationSeconds (d : Int) : Int :=
  if d < 0 then -((float64.trunc (Seconds d.natAbs) : Nat) : Int)
  else ((float64.trunc (Seconds d.natAbs) : Nat) : Int)

/-- Lines 244-245 of `transcode`: `bw := len(segData) * 8 / int(seg.Duration.Seconds())`
and the value `bw - bw%1000` stored in `bandwidths[i]`; `none` is the run-time
panic of an integer division by zero. -/
def estimateBandwidth (segData : Bytes) (duration : Int) : Option Int :=
  let secs := durationSeconds duration
  if secs = 0 then none
  else
    let bw := Int.tdiv ((segData.length : Int) * 8) secs
    some (bw - Int.tmod bw 1000)

/-- The file name `fmt.Sprintf("%s_%s_%d.ts", getBase(dst), presets[i], seg.SeqNo)`
(line 247). -/
def segFileName (dst preset : GoString) (seqNo : Int) : GoString :=
  getBase dst ++ '_' :: preset ++ '_' :: strconv.Itoa seqNo ++ ".ts".toList

/-- The descriptor built at lines 248-251; `uint64(seg.SeqNo)` keeps the low
64 bits. -/
def mkMediaSegment (dst preset : GoString) (seg : HlsSegment) : MediaSegment :=
  { SeqId := (seg.SeqNo % 18446744073709551616).toNat
    Duration := seg.Duration
    URI := segFileName dst preset seg.SeqNo }

/-- The body of `for i, segData := range transcoded` in playlist mode
(lines 242-257).  Indexing past the end of a slice panics, and so do a
division by zero and a failed write. -/
def playlistSegment (w : World) (dst : GoString) (presets : List GoString) (seg : HlsSegment)
    (i : Nat) (segData : Bytes) (st : LoopState) : Except Outcome LoopState :=
  match st.bandwidths[i]? with
  | none => .error .panicked
  | some b =>
    let newBandwidths : Except Outcome (List Int) :=
      if b = 0 then
        match estimateBandwidth segData seg.Duration with
        | none => .error .panicked
        | some v => .ok (st.bandwidths.set i v)
      else .ok st.bandwidths
    match newBandwidths with
    | .error o => .error o
    | .ok bandwidths =>
      match presets[i]?, st.mediaSegments[i]? with
      | some preset, some segs =>
        let mseg := mkMediaSegment dst preset seg
        let mediaSegments := st.mediaSegments.set i (segs ++ [mseg])
        let segFileFullName := addPathFrom dst mseg.URI
        match w.WriteFile segFileFullName segData with
        | some _ => .error .panicked
        | none =>
          .ok { st with
                err := none
                bandwidths := bandwidths
                mediaSegments := mediaSegments
                writtenFiles := st.writtenFiles ++ [segFileFullName] }
      | _, _ => .error .panicked

/-- The body of `for i, segData := range transcoded` in container mode
(lines 259-273), with `nOut = len(outFiles)`.  The `err` of `Streams` and
`WriteHeader` is local to its block; the result of `CopyPackets` is assigned
to the `err` of the function, and anything but `io.EOF` is returned. -/
def containerSegment (w : World) (nOut : Nat) (seg : HlsSegment)
    (i : Nat) (segData : Bytes) (st : LoopState) : Except Outcome LoopState :=
  let header : Except Outcome Unit :=
    if seg.SeqNo = 0 then
      match w.Streams segData with
      | some e => .error (.returned (some e))
      | none =>
        if i < nOut then
          match w.WriteHeader i segData with
          | some e => .error (.returned (some e))
          | none => .ok ()
        else .error .panicked
    else .ok ()
  match header with
  | .error o => .error o
  | .ok _ =>
    if i < nOut then
      match w.CopyPackets i segData with
      | some .EOF => .ok { st with err := some .EOF }
      | r => .error (.returned r)
    else .error .panicked

/-- The loop `for i, segData := range transcoded` (line 241), from index `i`. -/
def rangeTranscoded (body : Nat → Bytes → LoopState → Except Outcome LoopState) :
    Nat → List Bytes → LoopState → Except Outcome LoopState
  | _, [], st => .ok st
  | i, segData :: rest, st =>
    match body i segData st with
    | .error o => .error o
    | .ok st' => rangeTranscoded body (i + 1) rest st'

/-- The loop `for seg := range segmentsIn` (lines 224-276): it ends when the
channel is closed, at a record carrying `io.EOF`, at a record carrying another
error (kept in `err`) and at a failed push (kept in `err`).  An `error` result
is a panic or a `return` inside the loop. -/
def segmentLoop (w : World) (dst : GoString) (presets : List GoString) (playlistMode : Bool) :
    List HlsSegment → LoopState → Except Outcome LoopState
  | [], st => .ok st
  | seg :: rest, st =>
    let st := { st with consumed := st.consumed + 1 }
    match seg.Err with
    | some .EOF => .ok st
    | some e => .ok { st with err := some e }
    | none =>
      match w.PushSegment seg.SeqNo seg.Duration seg.Data with
      | .error e => .ok { st with err := some e }
      | .ok transcoded =>
        let body :=
          if playlistMode then playlistSegment w dst presets seg
          else containerSegment w presets.length seg
        match rangeTranscoded body 0 transcoded { st with err := none } with
        | .error o => .error o
        | .ok st' => segmentLoop w dst presets playlistMode rest st'

/-- The rendition names of lines 200-206: the profile names, `profile_<i>`
for a profile without name. -/
def profileNames (profiles : List Profile) : List GoString :=
  profiles.enum.map fun (i, prof) =>
    if prof.Name = [] then "profile_".toList ++ strconv.Itoa (i : Int) else prof.Name

/-- The rendition names that `transcode` uses (lines 199-207): the presets,
or the profile names when no preset is given. -/
def renditionNames (presets : List GoString) (profiles : List Profile) : List GoString :=
  if presets.length = 0 then profileNames profiles else presets

/-- The variant entries appended to the master playlist (lines 278-284);
`none` is the panic of `profiles[i]` past the end of `profiles`. -/
def masterVariants (dst : GoString) (profiles : List Profile) (bandwidths : List Int) :
    Nat → List GoString → Option (List Variant)
  | _, [] => some []
  | i, pn :: rest =>
    let name := makeMediaPlaylistName dst pn
    let resolution : Option GoString :=
      if profiles.length > 0 then
        match profiles[i]? with
        | none => none
        | some prof => some (strconv.Itoa prof.Width ++ 'x' :: strconv.Itoa prof.Height)
      else some []
    match resolution, bandwidths[i]?, masterVariants dst profiles bandwidths (i + 1) rest with
    | some r, some b, some vs =>
      some ({ URI := name ++ ".m3u8".toList, Name := name, Resolution := r,
              Bandwidth := (b % 4294967296).toNat } :: vs)
    | _, _, _ => none

/-- The steps after the loop (lines 277-327).  In playlist mode the master
playlist and then the media playlists are written, and a failed write ends the
process; in container mode the writers are closed and the first failure is
returned.  After that the function logs `err` and returns `nil`. -/
def finish (w : World) (dst : GoString) (presets : List GoString) (profiles : List Profile)
    (playlistMode : Bool) (st : LoopState) : Outcome :=
  if playlistMode then
    match masterVariants dst profiles st.bandwidths 0 presets with
    | none => .panicked
    | some variants =>
      match w.WriteFile dst (w.encodeMaster variants) with
      | some _ => .exited
      | none =>
        let failed := (presets.zip st.mediaSegments).any fun (pn, segs) =>
          (w.WriteFile (makeMediaPlaylistDstName dst pn) (w.encodeMedia segs)).isSome
        if failed then .exited else .returned none
  else
    match (List.range presets.length).findSome? w.Close with
    | some e => .returned (some e)
    | none => .returned none

/-- The loop variables before the first segment (lines 188-221): in playlist
mode one zero bandwidth and one empty descriptor list for each rendition. -/
def initialState (playlistMode : Bool) (n : Nat) : LoopState :=
  if playlistMode then
    { bandwidths := List.replicate n 0
      mediaSegments := List.replicate n [] }
  else {}

/-- What a call of `transcode` leaves: how it ended, and the loop variables
when the loop was left without panic or `return`. -/
structure Run where
  outcome : Outcome
  final : Option LoopState
  deriving DecidableEq, Repr

/-- Translation of `transcode` (transcode.go, lines 162-328).  The arguments
`apiKey`, `apiHost` and `src` only reach the collaborators and are part of the
`World`.  Deferred calls and logging are not modelled. -/
def transcode (w : World) (dst : GoString) (presets : List GoString)
    (lprofiles : List Profile) : Run :=
  let profiles := lprofiles
  match w.CreateStreamEx presets profiles with
  | .error e => ⟨.returned (some e), none⟩
  | .ok _ =>
    match w.StartSegmenting with
    | some e => ⟨.returned (some e), none⟩
    | none =>
      let playlistMode := decide (filepath.Ext dst = ".m3u8".toList)
      let presets := renditionNames presets profiles
      let created : Option GoError :=
        if playlistMode then none
        else (List.range presets.length).findSome? fun (i : Nat) =>
          w.Create (makeDstName dst (i : Int) (presets.length : Int))
      match created with
      | some e => ⟨.returned (some (.wrapped "can't create out file" e)), none⟩
      | none =>
        let st0 := initialState playlistMode presets.length
        match segmentLoop w dst presets playlistMode w.segmentsIn st0 with
        | .error o => ⟨o, none⟩
        | .ok st => ⟨finish w dst presets profiles playlistMode st, some st⟩

/-- The bandwidth that the specification states for a first segment of `L`
bytes and duration `d` nanoseconds: the bits of the segment divided by its
duration in seconds, `floor(8 L / (d / 10^9))`, rounded down to a multiple of
1000. -/
def specBandwidth (L : Nat) (d : Int) : Int :=
  (8 * (L : Int) * 1000000000 / d) / 1000 * 1000

/-- The buffer that the push of `seg` returns for rendition `r` (empty when
the push fails or returns fewer buffers). -/
def transcodedData (w : World) (seg : HlsSegment) (r : Nat) : Bytes :=
  match w.PushSegment seg.SeqNo seg.Duration seg.Data with
  | .ok transcoded => transcoded.getD r []
  | .error _ => []

/-- The bandwidth estimate that lines 244-245 compute for rendition `r` from
the segment `seg` (0 where the division faults). -/
def segmentEstimate (w : World) (seg : HlsSegment) (r : Nat) : Int :=
  (estimateBandwidth (transcodedData w seg r) seg.Duration).getD 0

/-- The first non-zero value of a list, 0 if there is none. -/
def firstNonzero : List Int → Int
  | [] => 0
  | v :: vs => if v = 0 then firstNonzero vs else v

/-- A record of `segmentsIn` that is a segment, whose push returns one buffer
per rendition, and whose buffers are all written to their segment files. -/
def PushedAndWritten (w : World) (dst : GoString) (names : List GoString)
    (seg : HlsSegment) : Prop :=
  seg.Err = none ∧
  ∃ transcoded, w.PushSegment seg.SeqNo seg.Duration seg.Data = .ok transcoded ∧
    transcoded.length = names.length ∧
    ∀ (r : Nat) (name : GoString) (d : Bytes), names[r]? = some name → transcoded[r]? = some d →
      w.WriteFile (addPathFrom dst (segFileName dst name seg.SeqNo)) d = none

/-- The durations for which no bandwidth estimate divides by zero: every
segment lasts at least one second, or the first segment lasts at least one
second and gives every rendition a non-zero estimate (so that no later segment
is used for an estimate). -/
def DurationsSafe (w : World) (names : List GoString) (segs : List HlsSegment) : Prop :=
  (∀ s ∈ segs, 1000000000 ≤ s.Duration) ∨
  ∃ first later, segs = first :: later ∧ 1000000000 ≤ first.Duration ∧
    ∀ r, r < names.length → segmentEstimate w first r ≠ 0

/-- A world in which the session is created, every file operation succeeds
and the channel delivers `segments`; the push of the segment with sequence
number `n` returns `push n`.  It is used to state concrete runs. -/
def quietWorld (segments : List HlsSegment) (push : Int → Except GoError (List Bytes)) : World :=
  { CreateStreamEx := fun _ _ => .ok "id".toList
    StartSegmenting := none
    segmentsIn := segments
    PushSegment := fun seqNo _ _ => push seqNo
    WriteFile := fun _ _ => none
    Create := fun _ => none
    Streams := fun _ => none
    WriteHeader := fun _ _ => none
    CopyPackets := fun _ _ => some .EOF
    Close := fun _ => none
    encodeMaster := fun _ => []
    encodeMedia := fun _ => [] }

/-- Value of a string of decimal digits read from the left, without bound. -/
def digitsValue (xs : List Char) (n : Nat) : Nat :=
  xs.foldl (fun acc c => acc * 10 + strconv.digitVal c) n

/-- Text made of at least one decimal digit and nothing else. -/
def isUnsignedDecimal (s : GoString) : Bool := !s.isEmpty && s.all strconv.isDigit

/-- Text made of an optional sign followed by at least one decimal digit. -/
def isDecimal (s : GoString) : Bool :=
  match s with
  | [] => false
  | c :: cs => if c = '+' ∨ c = '-' then isUnsignedDecimal cs else isUnsignedDecimal s

/-! ## Decimal digits -/

theorem digitChar_isDigit (d : Nat) (hd : d < 10) :
    strconv.isDigit (Nat.digitChar d) = true ∧ strconv.digitVal (Nat.digitChar d) = d := by
  interval_cases d <;> decide

theorem toDigitsCore_acc (fuel : Nat) : ∀ (n : Nat) (acc : List Char),
    Nat.toDigitsCore 10 fuel n acc = Nat.toDigitsCore 10 fuel n [] ++ acc := by
  induction fuel with
  | zero => intro n acc; simp [Nat.toDigitsCore]
  | succ f ih =>
    intro n acc
    simp only [Nat.toDigitsCore]
    by_cases h : n / 10 = 0
    · simp [h]
    · simp only [h, if_false]
      rw [ih (n / 10) (Nat.digitChar (n % 10) :: acc), ih (n / 10) [Nat.digitChar (n % 10)]]
      simp

theorem toDigitsCore_fuel : ∀ (n fuel : Nat), n < fuel →
    Nat.toDigitsCore 10 fuel n [] = Nat.toDigits 10 n := by
  intro n
  induction n using Nat.strong_induction_on with
  | _ n ih =>
    intro fuel hf
    obtain ⟨f, rfl⟩ : ∃ f, fuel = f + 1 := ⟨fuel - 1, by omega⟩
    simp only [Nat.toDigits, Nat.toDigitsCore]
    by_cases h : n / 10 = 0
    · simp [h]
    · simp only [h, if_false]
      have hlt : n / 10 < n := by omega
      rw [toDigitsCore_acc f, toDigitsCore_acc n, ih (n / 10) hlt f (by omega),
        ih (n / 10) hlt n hlt]

theorem toDigits_small (n : Nat) (h : n < 10) : Nat.toDigits 10 n = [Nat.digitChar n] := by
  have h0 : n / 10 = 0 := by omega
  have h1 : n % 10 = n := by omega
  simp [Nat.toDigits, Nat.toDigitsCore, h0, h1]

theorem toDigits_step (n : Nat) (h : 10 ≤ n) :
    Nat.toDigits 10 n = Nat.toDigits 10 (n / 10) ++ [Nat.digitChar (n % 10)] := by
  have h0 : n / 10 ≠ 0 := by omega
  have hlt : n / 10 < n := by omega
  conv_lhs => simp only [Nat.toDigits, Nat.toDigitsCore, h0, if_false]
  rw [toDigitsCore_acc, toDigitsCore_fuel (n / 10) n hlt]

theorem toDigits_all_digits (n : Nat) : ∀ c ∈ Nat.toDigits 10 n, strconv.isDigit c = true := by
  induction n using Nat.strong_induction_on with
  | _ n ih =>
    by_cases h : n < 10
    · rw [toDigits_small n h]
      intro c hc
      simp only [List.mem_singleton] at hc
      subst hc
      exact (digitChar_isDigit n h).1
    · rw [toDigits_step n (by omega)]
      intro c hc
      rcases List.mem_append.mp hc with hc | hc
      · exact ih (n / 10) (by omega) c hc
      · simp only [List.mem_singleton] at hc
        subst hc
        exact (digitChar_isDigit (n % 10) (Nat.mod_lt _ (by decide))).1

theorem toDigits_ne_nil (n : Nat) : Nat.toDigits 10 n ≠ [] := by
  by_cases h : n < 10
  · rw [toDigits_small n h]; simp
  · rw [toDigits_step n (by omega)]; simp

theorem digitsValue_append (xs ys : List Char) (n : Nat) :
    digitsValue (xs ++ ys) n = digitsValue ys (digitsValue xs n) := by
  simp [digitsValue, List.foldl_append]

theorem digitsValue_toDigits (n : Nat) : digitsValue (Nat.toDigits 10 n) 0 = n := by
  induction n using Nat.strong_induction_on with
  | _ n ih =>
    by_cases h : n < 10
    · rw [toDigits_small n h]
      simp [digitsValue, (digitChar_isDigit n h).2]
    · rw [toDigits_step n (by omega), digitsValue_append, ih (n / 10) (by omega)]
      simp only [digitsValue, List.foldl_cons, List.foldl_nil,
        (digitChar_isDigit (n % 10) (Nat.mod_lt _ (by decide))).2]
      omega

theorem toDigits_injective (a b : Nat) (h : Nat.toDigits 10 a = Nat.toDigits 10 b) : a = b := by
  have := congrArg (fun l => digitsValue l 0) h
  simpa [digitsValue_toDigits] using this

theorem digitsValue_ge (xs : List Char) : ∀ n, n ≤ digitsValue xs n := by
  induction xs with
  | nil => intro n; simp [digitsValue]
  | cons c cs ih =>
    intro n
    have := ih (n * 10 + strconv.digitVal c)
    simp only [digitsValue, List.foldl_cons] at this ⊢
    omega

/-! ## The numeric parsers of `strconv` on digit strings -/

theorem isDigit_ne_of_not_digit (c d : Char) (hc : strconv.isDigit c = true)
    (hd : strconv.isDigit d = false) : c ≠ d := by
  intro h; subst h; simp [hc] at hd

theorem digitVal_le (c : Char) (hc : strconv.isDigit c = true) : strconv.digitVal c ≤ 9 := by
  simp only [strconv.isDigit, Bool.and_eq_true, decide_eq_true_eq] at hc
  simp only [strconv.digitVal]
  omega

theorem parseUintLoop_digits (maxVal : Nat) (hmax : maxVal ≤ strconv.maxUint64) :
    ∀ (xs : List Char) (n : Nat), (∀ c ∈ xs, strconv.isDigit c = true) →
      digitsValue xs n ≤ maxVal →
      strconv.parseUintLoop maxVal xs n = .ok (digitsValue xs n) := by
  intro xs
  induction xs with
  | nil => intro n _ _; simp [strconv.parseUintLoop, digitsValue]
  | cons c cs ih =>
    intro n hall hle
    have hc : strconv.isDigit c = true := hall c (List.mem_cons_self _ _)
    have hd := digitVal_le c hc
    have hge := digitsValue_ge cs (n * 10 + strconv.digitVal c)
    have hval : digitsValue (c :: cs) n = digitsValue cs (n * 10 + strconv.digitVal c) := by
      simp [digitsValue]
    rw [hval] at hle ⊢
    simp only [strconv.maxUint64] at hmax
    have h1 : ¬ (n ≥ strconv.maxUint64 / 10 + 1) := by
      simp only [strconv.maxUint64]; omega
    have h2 : (n * 10 + strconv.digitVal c) % 18446744073709551616
        = n * 10 + strconv.digitVal c := Nat.mod_eq_of_lt (by omega)
    have h3 : ¬ (n * 10 + strconv.digitVal c < n * 10 ∨ n * 10 + strconv.digitVal c > maxVal) := by
      omega
    simp only [strconv.parseUintLoop, hc, if_true, h1, if_false, h2, h3]
    exact ih _ (fun c hc => hall c (List.mem_cons_of_mem _ hc)) hle

theorem parseUintLoop_nondigit (maxVal : Nat) :
    ∀ (xs : List Char) (n : Nat), (∃ c ∈ xs, strconv.isDigit c = false) →
      ∃ k, strconv.parseUintLoop maxVal xs n = .error k := by
  intro xs
  induction xs with
  | nil => intro n h; obtain ⟨c, hc, _⟩ := h; simp at hc
  | cons c cs ih =>
    intro n h
    by_cases hc : strconv.isDigit c = true
    · have hrest : ∃ d ∈ cs, strconv.isDigit d = false := by
        obtain ⟨d, hd, hnd⟩ := h
        rcases List.mem_cons.mp hd with hd | hd
        · subst hd; simp [hc] at hnd
        · exact ⟨d, hd, hnd⟩
      simp only [strconv.parseUintLoop, hc, if_true]
      split
      · exact ⟨_, rfl⟩
      · split
        · exact ⟨_, rfl⟩
        · exact ih _ hrest
    · simp only [strconv.parseUintLoop, hc]
      exact ⟨_, rfl⟩

theorem atoiFast_digits : ∀ (xs : List Char) (n : Nat), (∀ c ∈ xs, strconv.isDigit c = true) →
    strconv.atoiFast xs (n : Int) = some ((digitsValue xs n : Nat) : Int) := by
  intro xs
  induction xs with
  | nil => intro n _; simp [strconv.atoiFast, digitsValue]
  | cons c cs ih =>
    intro n hall
    have hc : strconv.isDigit c = true := hall c (List.mem_cons_self _ _)
    have := ih (n * 10 + strconv.digitVal c) (fun c hc => hall c (List.mem_cons_of_mem _ hc))
    simp only [strconv.atoiFast, hc, if_true]
    push_cast at this
    rw [this]
    simp [digitsValue]

theorem atoiFast_nondigit : ∀ (xs : List Char) (n : Int), (∃ c ∈ xs, strconv.isDigit c = false) →
    strconv.atoiFast xs n = none := by
  intro xs
  induction xs with
  | nil => intro n h; obtain ⟨c, hc, _⟩ := h; simp at hc
  | cons c cs ih =>
    intro n h
    by_cases hc : strconv.isDigit c = true
    · have hrest : ∃ d ∈ cs, strconv.isDigit d = false := by
        obtain ⟨d, hd, hnd⟩ := h
        rcases List.mem_cons.mp hd with hd | hd
        · subst hd; simp [hc] at hnd
        · exact ⟨d, hd, hnd⟩
      simp only [strconv.atoiFast, hc, if_true]
      exact ih _ hrest
    · simp [strconv.atoiFast, hc]

theorem ParseUint_toDigits (n bitSize : Nat) (hb : 0 < bitSize) (hb64 : bitSize ≤ 64)
    (hn : n < 2 ^ bitSize) : strconv.ParseUint (Nat.toDigits 10 n) bitSize = .ok n := by
  have hmax : 2 ^ bitSize - 1 ≤ strconv.maxUint64 := by
    have : 2 ^ bitSize ≤ 2 ^ 64 := Nat.pow_le_pow_right (by decide) hb64
    simp only [strconv.maxUint64]
    omega
  have hb0 : bitSize ≠ 0 := by omega
  have := parseUintLoop_digits (2 ^ bitSize - 1) hmax (Nat.toDigits 10 n) 0
    (toDigits_all_digits n) (by rw [digitsValue_toDigits]; omega)
  simp only [strconv.ParseUint, toDigits_ne_nil, if_false, hb0, this, digitsValue_toDigits]

theorem Atoi_toDigits (n : Nat) (hn : n < 2 ^ 63) :
    strconv.Atoi (Nat.toDigits 10 n) = .ok (n : Int) := by
  have hall := toDigits_all_digits n
  obtain ⟨c, cs, hs⟩ : ∃ c cs, Nat.toDigits 10 n = c :: cs := by
    cases h : Nat.toDigits 10 n with
    | nil => exact absurd h (toDigits_ne_nil n)
    | cons c cs => exact ⟨c, cs, rfl⟩
  have hc : strconv.isDigit c = true := hall c (by rw [hs]; exact List.mem_cons_self _ _)
  have hminus : c ≠ '-' := isDigit_ne_of_not_digit c '-' hc (by decide)
  have hplus : c ≠ '+' := isDigit_ne_of_not_digit c '+' hc (by decide)
  have hval := digitsValue_toDigits n
  rw [hs] at hall hval
  rw [hs]
  unfold strconv.Atoi
  split
  · have hfast := atoiFast_digits (c :: cs) 0 hall
    simp only [hminus, hplus, or_self, if_false, List.length_cons, Nat.lt_one_iff,
      Nat.add_one_ne_zero]
    rw [show ((0 : Nat) : Int) = 0 from rfl] at hfast
    rw [hfast, hval]
  · have hloop := parseUintLoop_digits (2 ^ 64 - 1) (by decide) (c :: cs) 0 hall
      (by rw [hval]; omega)
    have h63 : ¬ (n ≥ 2 ^ 63) := by omega
    simp only [strconv.ParseInt, strconv.ParseUint, hminus, hplus, or_self, if_false,
      intSize, if_true, reduceCtorEq, hloop, hval, decide_False, Bool.not_false,
      Bool.true_and, Bool.false_and, decide_eq_true_eq, Bool.false_eq_true]
    have h63b : ¬ (9223372036854775808 ≤ n) := by omega
    simp [h63b]

/-! ## `strings.Split` -/

theorem Split_ne_nil (s : GoString) (sep : Char) : strings.Split s sep ≠ [] := by
  cases s with
  | nil => simp [strings.Split]
  | cons c cs =>
    simp only [strings.Split]
    split
    · simp
    · split <;> simp

theorem Split_no_sep (s : GoString) (sep : Char) (h : sep ∉ s) : strings.Split s sep = [s] := by
  induction s with
  | nil => simp [strings.Split]
  | cons c cs ih =>
    have hc : c ≠ sep := fun e => h (by simp [e])
    have hcs : sep ∉ cs := fun e => h (List.mem_cons_of_mem _ e)
    simp [strings.Split, hc, ih hcs]

theorem Split_append (a b : GoString) (sep : Char) (h : sep ∉ a) :
    strings.Split (a ++ sep :: b) sep = a :: strings.Split b sep := by
  induction a with
  | nil => simp [strings.Split]
  | cons c cs ih =>
    have hc : c ≠ sep := fun e => h (by simp [e])
    have hcs : sep ∉ cs := fun e => h (List.mem_cons_of_mem _ e)
    simp [strings.Split, hc, ih hcs]

theorem toDigits_no_char (n : Nat) (d : Char) (hd : strconv.isDigit d = false) :
    d ∉ Nat.toDigits 10 n := by
  intro hmem
  have := toDigits_all_digits n d hmem
  simp [this] at hd

theorem isUnsignedDecimal_false (s : GoString) (h : isUnsignedDecimal s = false) :
    s = [] ∨ ∃ c ∈ s, strconv.isDigit c = false := by
  cases s with
  | nil => exact Or.inl rfl
  | cons c cs =>
    right
    simp only [isUnsignedDecimal, List.isEmpty_cons, Bool.not_false, Bool.true_and] at h
    have : ¬ ((c :: cs).all strconv.isDigit = true) := by simp [h]
    rw [List.all_eq_true] at this
    push_neg at this
    obtain ⟨d, hd, hnd⟩ := this
    exact ⟨d, hd, by simpa using hnd⟩

theorem ParseUint_not_unsigned (s : GoString) (bitSize : Nat) (h : isUnsignedDecimal s = false) :
    ∃ k, strconv.ParseUint s bitSize = .error k := by
  rcases isUnsignedDecimal_false s h with hnil | hnd
  · subst hnil; exact ⟨.ErrSyntax, by simp [strconv.ParseUint]⟩
  · have hne : s ≠ [] := by
      obtain ⟨c, hc, _⟩ := hnd
      exact List.ne_nil_of_mem hc
    obtain ⟨k, hk⟩ := parseUintLoop_nondigit
      (2 ^ (if bitSize = 0 then intSize else bitSize) - 1) s 0 hnd
    exact ⟨k, by simp only [strconv.ParseUint, hne, if_false, hk]⟩

theorem ParseInt_not_decimal (s : GoString) (h : isDecimal s = false) :
    ∃ k, strconv.ParseInt s 0 = .error k := by
  cases s with
  | nil => exact ⟨.ErrSyntax, by simp [strconv.ParseInt]⟩
  | cons c cs =>
    have hbody : isUnsignedDecimal (if c = '+' ∨ c = '-' then cs else c :: cs) = false := by
      simp only [isDecimal] at h
      split at h <;> simp_all
    obtain ⟨k, hk⟩ := ParseUint_not_unsigned _ 0 hbody
    simp only [strconv.ParseInt, hk]
    cases k with
    | ErrSyntax => exact ⟨_, rfl⟩
    | ErrRange =>
      by_cases hneg : c = '-'
      · exact ⟨.ErrRange, by simp [hneg, intSize]⟩
      · exact ⟨.ErrRange, by simp [hneg, intSize]⟩

theorem Atoi_not_decimal (s : GoString) (h : isDecimal s = false) :
    ∃ k, strconv.Atoi s = .error (.numError "Atoi" s k) := by
  unfold strconv.Atoi
  split
  · cases s with
    | nil => exact ⟨.ErrSyntax, rfl⟩
    | cons c cs =>
      have hbody : isUnsignedDecimal (if c = '-' ∨ c = '+' then cs else c :: cs) = false := by
        simp only [isDecimal] at h
        split at h <;> simp_all [or_comm]
      simp only
      generalize (if c = '-' ∨ c = '+' then cs else c :: cs) = body at hbody ⊢
      by_cases hlen : body.length < 1
      · exact ⟨.ErrSyntax, by rw [if_pos hlen]⟩
      · rcases isUnsignedDecimal_false _ hbody with hnil | hnd
        · rw [hnil] at hlen; simp at hlen
        · rw [if_neg hlen, atoiFast_nondigit _ 0 hnd]
          exact ⟨.ErrSyntax, rfl⟩
  · obtain ⟨k, hk⟩ := ParseInt_not_decimal s h
    exact ⟨k, by rw [hk]⟩

theorem Atoi_error_shape (s : GoString) (e : GoError) (h : strconv.Atoi s = .error e) :
    ∃ k, e = .numError "Atoi" s k := by
  unfold strconv.Atoi at h
  split at h
  · cases s with
    | nil => exact ⟨.ErrSyntax, by simpa using h.symm⟩
    | cons c cs =>
      simp only at h
      generalize (if c = '-' ∨ c = '+' then cs else c :: cs) = body at h
      by_cases hlen : body.length < 1
      · rw [if_pos hlen] at h
        exact ⟨.ErrSyntax, by simpa using h.symm⟩
      · rw [if_neg hlen] at h
        cases hf : strconv.atoiFast body 0 with
        | none =>
          rw [hf] at h
          exact ⟨.ErrSyntax, by simpa using h.symm⟩
        | some n => rw [hf] at h; simp at h
  · split at h
    · rename_i k _
      exact ⟨k, by simpa using h.symm⟩
    · simp at h

/-- C1: for non-negative `W` and `H` that fit in a Go `int`, `parseResolution`
applied to `decimal(W) ++ "x" ++ decimal(H)` returns `(W, H)` and no error. -/
theorem parseResolution_roundtrip (W H : Nat) (hW : W < 2 ^ 63) (hH : H < 2 ^ 63) :
    parseResolution (Nat.toDigits 10 W ++ 'x' :: Nat.toDigits 10 H)
      = .ok ((W : Int), (H : Int)) := by
  have hx : strconv.isDigit 'x' = false := by decide
  simp only [parseResolution, Split_append _ _ 'x' (toDigits_no_char W 'x' hx),
    Split_no_sep _ 'x' (toDigits_no_char H 'x' hx), Atoi_toDigits W hW, Atoi_toDigits H hH]

/-- C1, at `1280x720`. -/
theorem parseResolution_roundtrip_witness :
    1280 < 2 ^ 63 ∧ 720 < 2 ^ 63 ∧
      parseResolution (Nat.toDigits 10 1280 ++ 'x' :: Nat.toDigits 10 720)
        = .ok ((1280 : Int), (720 : Int)) :=
  ⟨by decide, by decide, parseResolution_roundtrip 1280 720 (by decide) (by decide)⟩

/-- C2, as stated, fails: on `1280xabc` the height component is not a number,
`parseResolution` fails, and the error is the `NumError` of `strconv.Atoi`, not
`errResolution`. -/
theorem parseResolution_error_not_errResolution :
    isDecimal "abc".toList = false ∧
      parseResolution "1280xabc".toList
        = .error (.numError "Atoi" "abc".toList .ErrSyntax) ∧
      parseResolution "1280xabc".toList ≠ .error .errResolution := by
  decide

theorem Atoi_not_decimal_kind (s : GoString) (h : isDecimal s = false) :
    ∃ k, strconv.Atoi s = .error (.numError "Atoi" s k) ∧
      (s.length < 19 → k = .ErrSyntax) := by
  by_cases hs : 0 < s.length ∧ s.length < 19
  · refine ⟨.ErrSyntax, ?_, fun _ => rfl⟩
    unfold strconv.Atoi
    rw [if_pos hs]
    cases s with
    | nil => rfl
    | cons c cs =>
      have hbody : isUnsignedDecimal (if c = '-' ∨ c = '+' then cs else c :: cs) = false := by
        simp only [isDecimal] at h
        split at h <;> simp_all [or_comm]
      simp only
      generalize (if c = '-' ∨ c = '+' then cs else c :: cs) = body at hbody ⊢
      by_cases hlen : body.length < 1
      · rw [if_pos hlen]
      · rcases isUnsignedDecimal_false _ hbody with hnil | hnd
        · rw [hnil] at hlen; simp at hlen
        · rw [if_neg hlen, atoiFast_nondigit _ 0 hnd]
  · cases s with
    | nil => exact ⟨.ErrSyntax, by decide, fun _ => rfl⟩
    | cons c cs =>
      obtain ⟨k, hk⟩ := Atoi_not_decimal (c :: cs) h
      refine ⟨k, hk, fun hl => ?_⟩
      exact absurd ⟨by simp, hl⟩ hs

/-- C2, amended: a string without `x` fails with `errResolution`.  For a
string with `x`, let `w` and `h` be the first two pieces that `strings.Split`
cuts at `x`: when `strconv.Atoi` rejects `w`, `parseResolution` returns the
error of `Atoi` for `w`, whatever `h` is; when `Atoi` accepts `w` and rejects
`h`, it returns the error of `Atoi` for `h`.  `Atoi` rejects every component
that is not an optionally signed decimal integer, with the `NumError` whose
`Func` is `Atoi`, whose `Num` is that component and whose `Err` is `ErrSyntax`
when the component has fewer than 19 characters; so a malformed width yields
the error of the width, and a malformed height yields the error of the height
exactly when `Atoi` accepts the width. -/
theorem parseResolution_malformed (s : GoString) :
    ('x' ∉ s → parseResolution s = .error .errResolution) ∧
    (∀ w h rest, strings.Split s 'x' = w :: h :: rest →
      (∀ e, strconv.Atoi w = .error e → parseResolution s = .error e) ∧
      (∀ v e, strconv.Atoi w = .ok v → strconv.Atoi h = .error e →
        parseResolution s = .error e) ∧
      (isDecimal w = false →
        ∃ k, strconv.Atoi w = .error (.numError "Atoi" w k) ∧
          (w.length < 19 → k = .ErrSyntax) ∧
          parseResolution s = .error (.numError "Atoi" w k)) ∧
      (isDecimal h = false →
        ∃ k, strconv.Atoi h = .error (.numError "Atoi" h k) ∧
          (h.length < 19 → k = .ErrSyntax) ∧
          ∀ v, strconv.Atoi w = .ok v →
            parseResolution s = .error (.numError "Atoi" h k))) := by
  constructor
  · intro hx
    simp [parseResolution, Split_no_sep s 'x' hx]
  · intro w h rest hsplit
    have hw : ∀ e, strconv.Atoi w = .error e → parseResolution s = .error e := by
      intro e he
      simp only [parseResolution, hsplit, he]
    have hh : ∀ v e, strconv.Atoi w = .ok v → strconv.Atoi h = .error e →
        parseResolution s = .error e := by
      intro v e hv he
      simp only [parseResolution, hsplit, hv, he]
    refine ⟨hw, hh, ?_, ?_⟩
    · intro hbad
      obtain ⟨k, hk, hkind⟩ := Atoi_not_decimal_kind w hbad
      exact ⟨k, hk, hkind, hw _ hk⟩
    · intro hbad
      obtain ⟨k, hk, hkind⟩ := Atoi_not_decimal_kind h hbad
      exact ⟨k, hk, hkind, fun v hv => hh v _ hv hk⟩

/-- C2 amended, at `1280` (no separator), at `1280xabc` (malformed height
after an accepted width), at `12ax720` (malformed width) and at
`99999999999999999999xabc` (a width that `Atoi` rejects as out of range,
before a malformed height). -/
theorem parseResolution_malformed_witness :
    parseResolution "1280".toList = .error .errResolution ∧
      parseResolution "1280xabc".toList
        = .error (.numError "Atoi" "abc".toList .ErrSyntax) ∧
      parseResolution "12ax720".toList
        = .error (.numError "Atoi" "12a".toList .ErrSyntax) ∧
      parseResolution "99999999999999999999xabc".toList
        = .error (.numError "Atoi" "99999999999999999999".toList .ErrRange) := by
  refine ⟨(parseResolution_malformed "1280".toList).1 (by decide), ?_, ?_, ?_⟩
  · obtain ⟨k, -, hkind, hres⟩ :=
      ((parseResolution_malformed "1280xabc".toList).2 "1280".toList "abc".toList []
        (by decide)).2.2.2 (by decide)
    rw [← hkind (by decide)]
    exact hres 1280 (by decide)
  · obtain ⟨k, -, hkind, hres⟩ :=
      ((parseResolution_malformed "12ax720".toList).2 "12a".toList "720".toList []
        (by decide)).2.2.1 (by decide)
    rw [← hkind (by decide)]
    exact hres
  · exact ((parseResolution_malformed "99999999999999999999xabc".toList).2
      "99999999999999999999".toList "abc".toList [] (by decide)).1 _ (by decide)

/-- On `99999999999999999999xabc` the width is a decimal integer that does not
fit in an `int` and the height is not a number: the error returned is the
`ErrRange` of the width, as the first rejected component decides. -/
theorem parseResolution_width_error_first :
    isDecimal "99999999999999999999".toList = true ∧
      isDecimal "abc".toList = false ∧
      parseResolution "99999999999999999999xabc".toList
        = .error (.numError "Atoi" "99999999999999999999".toList .ErrRange) := by
  decide

theorem intOfUint64_small (u : Nat) (h : u < 2 ^ 63) : intOfUint64 u = (u : Int) := by
  simp only [intOfUint64, wrapInt64]
  have h1 : (u : Int) % 18446744073709551616 = u := by omega
  rw [h1]
  have h2 : (u : Int) < 9223372036854775808 := by omega
  simp [h2]

/-- C3, as stated, fails: `30/1/abc` has a component that is not a number, and
`parseFps` returns `(30, 1)` without error, because only the first two
components are read. -/
theorem parseFps_ignores_later_components :
    "30/1/abc".toList ≠ [] ∧
      "abc".toList ∈ strings.Split "30/1/abc".toList '/' ∧
      isUnsignedDecimal "abc".toList = false ∧
      parseFps "30/1/abc".toList = .ok (30, 1) := by
  decide

/-- C3, amended: for unsigned 32 bit `N` and `D`, `parseFps` returns `(N, 0)` on
`decimal(N)`, `(N, D)` on `decimal(N) ++ "/" ++ decimal(D)` and `(0, 0)` on the
empty string, all without error; and it returns an error on every non-empty
input whose first or second `/`-separated component is not an unsigned decimal
integer. -/
theorem parseFps_spec (N D : Nat) (hN : N < 2 ^ 32) (hD : D < 2 ^ 32) :
    parseFps (Nat.toDigits 10 N) = .ok ((N : Int), 0) ∧
    parseFps (Nat.toDigits 10 N ++ '/' :: Nat.toDigits 10 D) = .ok ((N : Int), (D : Int)) ∧
    parseFps [] = .ok (0, 0) ∧
    (∀ fps f0 rest, fps ≠ [] → strings.Split fps '/' = f0 :: rest →
      (isUnsignedDecimal f0 = false ∨
        ∃ f1 rest', rest = f1 :: rest' ∧ isUnsignedDecimal f1 = false) →
      ∃ e, parseFps fps = .error e) := by
  have hs : strconv.isDigit '/' = false := by decide
  have hN' := ParseUint_toDigits N 32 (by decide) (by decide) hN
  have hD' := ParseUint_toDigits D 32 (by decide) (by decide) hD
  have hNi := intOfUint64_small N (by omega)
  have hDi := intOfUint64_small D (by omega)
  have h0i : intOfUint64 0 = 0 := by decide
  refine ⟨?_, ?_, by simp [parseFps], ?_⟩
  · have hne : (Nat.toDigits 10 N).length ≠ 0 := by
      simpa using toDigits_ne_nil N
    simp only [parseFps, hne, if_false, Split_no_sep _ '/' (toDigits_no_char N '/' hs), hN',
      hNi, h0i]
  · have hne : (Nat.toDigits 10 N ++ '/' :: Nat.toDigits 10 D).length ≠ 0 := by simp
    simp only [parseFps, hne, if_false, Split_append _ _ '/' (toDigits_no_char N '/' hs),
      Split_no_sep _ '/' (toDigits_no_char D '/' hs), hN', hD', hNi, hDi]
  · intro fps f0 rest hne hsplit hbad
    have hlen : fps.length ≠ 0 := by simpa using hne
    simp only [parseFps, hlen, if_false, hsplit]
    by_cases h0 : isUnsignedDecimal f0 = false
    · obtain ⟨k, hk⟩ := ParseUint_not_unsigned f0 32 h0
      exact ⟨_, by rw [hk]⟩
    · rcases hbad with hb | ⟨f1, rest', hrest, h1⟩
      · exact absurd hb h0
      · subst hrest
        obtain ⟨k, hk⟩ := ParseUint_not_unsigned f1 32 h1
        cases hp : strconv.ParseUint f0 32 with
        | error k0 => exact ⟨_, rfl⟩
        | ok num => exact ⟨.wrapped "error parsing fps" (.numError "ParseUint" f1 k), by simp only [hk]⟩

/-- C3 amended, at `30000/1001` and at the malformed `30/x`. -/
theorem parseFps_spec_witness :
    (parseFps (Nat.toDigits 10 30000) = .ok ((30000 : Int), 0) ∧
      parseFps (Nat.toDigits 10 30000 ++ '/' :: Nat.toDigits 10 1001)
        = .ok ((30000 : Int), (1001 : Int))) ∧
      ∃ e, parseFps "30/x".toList = .error e :=
  ⟨⟨(parseFps_spec 30000 1001 (by decide) (by decide)).1,
      (parseFps_spec 30000 1001 (by decide) (by decide)).2.1⟩,
    (parseFps_spec 30000 1001 (by decide) (by decide)).2.2.2 "30/x".toList "30".toList
      ["x".toList] (by decide) (by decide) (Or.inr ⟨"x".toList, [], rfl, by decide⟩)⟩

/-! ## Output names -/

theorem extScan_suffix : ∀ (rev acc : List Char),
    ∃ pre, rev.reverse ++ acc = pre ++ filepath.extScan rev acc := by
  intro rev
  induction rev with
  | nil => intro acc; exact ⟨acc, by simp [filepath.extScan]⟩
  | cons c rest ih =>
    intro acc
    simp only [filepath.extScan]
    split
    · exact ⟨(c :: rest).reverse ++ acc, by simp⟩
    · split
      · exact ⟨rest.reverse, by simp⟩
      · obtain ⟨pre, hpre⟩ := ih (c :: acc)
        exact ⟨pre, by simpa using hpre⟩

theorem Ext_suffix (path : GoString) : ∃ pre, path = pre ++ filepath.Ext path := by
  obtain ⟨pre, hpre⟩ := extScan_suffix path.reverse []
  exact ⟨pre, by simpa [filepath.Ext] using hpre⟩

theorem extScan_shape : ∀ (rev acc : List Char), '.' ∉ acc → '/' ∉ acc →
    filepath.extScan rev acc = [] ∨
      ∃ e, filepath.extScan rev acc = '.' :: e ∧ '.' ∉ e ∧ '/' ∉ e := by
  intro rev
  induction rev with
  | nil => intro acc _ _; exact Or.inl rfl
  | cons c rest ih =>
    intro acc hdot hsep
    simp only [filepath.extScan]
    split
    · exact Or.inl rfl
    · rename_i hc
      split
      · rename_i hd
        exact Or.inr ⟨acc, by rw [hd], hdot, hsep⟩
      · rename_i hd
        have hc' : c ≠ '/' := by simpa [filepath.isPathSeparator] using hc
        apply ih
        · simp only [List.mem_cons, not_or]
          exact ⟨fun e => hd e.symm, hdot⟩
        · simp only [List.mem_cons, not_or]
          exact ⟨fun e => hc' e.symm, hsep⟩

/-- The extension is empty, or a dot followed by bytes that are neither a dot
nor a separator. -/
theorem Ext_shape (path : GoString) :
    filepath.Ext path = [] ∨ ∃ e, filepath.Ext path = '.' :: e ∧ '.' ∉ e ∧ '/' ∉ e :=
  extScan_shape path.reverse [] (by simp) (by simp)

theorem TrimSuffix_append (a b : GoString) : strings.TrimSuffix (a ++ b) b = a := by
  simp [strings.TrimSuffix, strings.HasSuffix]

theorem TrimSuffix_Ext (path pre : GoString) (h : path = pre ++ filepath.Ext path) :
    strings.TrimSuffix path (filepath.Ext path) = pre := by
  have := TrimSuffix_append pre (filepath.Ext path)
  rw [← h] at this
  exact this

theorem Itoa_nonneg (i : Int) (h : 0 ≤ i) : strconv.Itoa i = Nat.toDigits 10 i.toNat := by
  simp [strconv.Itoa, not_lt.mpr h]

/-- C4: with one rendition the destination is used as it is; with `K > 1`
renditions the names for the indices `0 .. K-1` are pairwise distinct, and the
name of index `i` is the destination with `_` and the decimal digits of `i`
inserted immediately before the extension `filepath.Ext dst`. -/
theorem makeDstName_spec (dst : GoString) :
    (∀ i : Int, makeDstName dst i 1 = dst) ∧
    ∀ K : Int, 1 < K →
      (∀ i j : Int, 0 ≤ i → i < K → 0 ≤ j → j < K → i ≠ j →
        makeDstName dst i K ≠ makeDstName dst j K) ∧
      (∀ i : Int, 0 ≤ i → i < K →
        ∃ base, dst = base ++ filepath.Ext dst ∧
          makeDstName dst i K = base ++ '_' :: Nat.toDigits 10 i.toNat ++ filepath.Ext dst) := by
  refine ⟨fun i => by simp [makeDstName], ?_⟩
  intro K hK
  have hK1 : K ≠ 1 := by omega
  obtain ⟨pre, hpre⟩ := Ext_suffix dst
  have htrim := TrimSuffix_Ext dst pre hpre
  have hname : ∀ i : Int, 0 ≤ i →
      makeDstName dst i K = pre ++ '_' :: Nat.toDigits 10 i.toNat ++ filepath.Ext dst := by
    intro i hi
    simp only [makeDstName, hK1, if_false, htrim, Itoa_nonneg i hi]
  constructor
  · intro i j hi _ hj _ hij heq
    rw [hname i hi, hname j hj] at heq
    have h1 := List.append_cancel_left (List.append_cancel_right heq)
    have h3 := toDigits_injective _ _ (List.cons.inj h1).2
    omega
  · intro i hi _
    exact ⟨pre, hpre, hname i hi⟩

/-- C4, at `out/v.mp4` with three renditions. -/
theorem makeDstName_spec_witness :
    makeDstName "out/v.mp4".toList 0 3 ≠ makeDstName "out/v.mp4".toList 2 3 ∧
      ∃ base, "out/v.mp4".toList = base ++ filepath.Ext "out/v.mp4".toList ∧
        makeDstName "out/v.mp4".toList 2 3
          = base ++ '_' :: Nat.toDigits 10 (2 : Int).toNat ++ filepath.Ext "out/v.mp4".toList :=
  ⟨((makeDstName_spec "out/v.mp4".toList).2 3 (by decide)).1 0 2 (by decide) (by decide)
      (by decide) (by decide) (by decide),
    ((makeDstName_spec "out/v.mp4".toList).2 3 (by decide)).2 2 (by decide) (by decide)⟩

/-! ## `parmsToProfile` -/

theorem wrapInt64_small (x : Int) (h0 : 0 ≤ x) (h1 : x < 2 ^ 63) : wrapInt64 x = x := by
  simp only [wrapInt64]
  have h2 : x % 18446744073709551616 = x := by omega
  rw [h2]
  have h3 : x < 9223372036854775808 := by omega
  simp [h3]

/-- C9, as stated, fails: the product `int(bitrate) * 1000` is computed in
64 bits, and for a bitrate of 9223372036854776 Kbit the call succeeds with a
stored bitrate that is negative, not 1000 times the given value. -/
theorem parmsToProfile_bitrate_overflow :
    ∃ p, parmsToProfile (fun _ => []) "1280x720".toList [] [] 9223372036854776 0 = .ok p ∧
      p.Bitrate = -9223372036854775616 ∧
      p.Bitrate ≠ 1000 * (9223372036854776 : Int) :=
  ⟨{ Name := "custom".toList, Width := 1280, Height := 720,
      Bitrate := -9223372036854775616 }, by decide, by decide, by decide⟩

theorem parmsToProfile_tagged (formatSeconds : Int → GoString)
    (resolution h264profile frameRate : GoString) (bitrate : Nat) (gop : Int)
    (w h num den : Int) (tag : GoString) (hb : bitrate ≠ 0) (hfit : bitrate * 1000 < 2 ^ 63)
    (hres : parseResolution resolution = .ok (w, h))
    (hfps : parseFps frameRate = .ok (num, den))
    (htag : (h264profile.length > 0 ∧ allowedH264Profiles.lookup h264profile = some tag) ∨
      (¬ h264profile.length > 0 ∧ tag = [])) :
    ∃ p, parmsToProfile formatSeconds resolution h264profile frameRate bitrate gop = .ok p ∧
      p.Profile = tag ∧ p.Bitrate = 1000 * (bitrate : Int) ∧
      p.Width = w ∧ p.Height = h ∧ p.Fps = num ∧ p.FpsDen = den := by
  have hbit : wrapInt64 (intOfUint64 bitrate * 1000) = 1000 * (bitrate : Int) := by
    rw [intOfUint64_small bitrate (by omega), wrapInt64_small _ (by omega) (by omega)]
    ring
  rcases htag with ⟨hlen, hlook⟩ | ⟨hlen, ht⟩
  · have hcall : parmsToProfile formatSeconds resolution h264profile frameRate bitrate gop
        = .ok { Name := "custom".toList, Width := w, Height := h,
                Bitrate := wrapInt64 (intOfUint64 bitrate * 1000), Fps := num, FpsDen := den,
                Gop := if gop > 0 then formatSeconds gop else [], Profile := tag } := by
      simp only [parmsToProfile, hb, if_false, hres, hfps, hlen, if_true, hlook]
    refine ⟨_, hcall, ?_⟩
    simp only [hbit, and_self]
  · subst ht
    have hcall : parmsToProfile formatSeconds resolution h264profile frameRate bitrate gop
        = .ok { Name := "custom".toList, Width := w, Height := h,
                Bitrate := wrapInt64 (intOfUint64 bitrate * 1000), Fps := num, FpsDen := den,
                Gop := if gop > 0 then formatSeconds gop else [], Profile := [] } := by
      simp only [parmsToProfile, hb, if_false, hres, hfps, hlen]
    refine ⟨_, hcall, ?_⟩
    simp only [hbit, and_self]

/-- C9, amended: with a zero bitrate the call fails whatever the other
arguments.  With a non-zero bitrate whose product by 1000 fits in a Go `int`,
a resolution that `parseResolution` accepts and a frame rate that `parseFps`
accepts: a non-empty h264-profile token other than `baseline`, `main`, `high`
fails with `errH264Profile`; each of these three tokens succeeds with the tag
`H264Baseline`, `H264Main`, `H264High`, and the empty token succeeds with no
tag; in every successful result the stored bitrate is 1000 times the given
value and width, height and fps are the parsed values. -/
theorem parmsToProfile_spec (formatSeconds : Int → GoString)
    (resolution h264profile frameRate : GoString) (bitrate : Nat) (gop : Int) :
    (bitrate = 0 →
      parmsToProfile formatSeconds resolution h264profile frameRate bitrate gop
        = .error (.message "should also specify bitrate")) ∧
    (∀ w h num den, bitrate ≠ 0 → bitrate * 1000 < 2 ^ 63 →
      parseResolution resolution = .ok (w, h) → parseFps frameRate = .ok (num, den) →
      (h264profile ≠ [] → h264profile ≠ "baseline".toList → h264profile ≠ "main".toList →
        h264profile ≠ "high".toList →
        parmsToProfile formatSeconds resolution h264profile frameRate bitrate gop
          = .error .errH264Profile) ∧
      (∀ tag, (h264profile, tag) ∈
          [("baseline".toList, "H264Baseline".toList), ("main".toList, "H264Main".toList),
           ("high".toList, "H264High".toList), ([], [])] →
        ∃ p, parmsToProfile formatSeconds resolution h264profile frameRate bitrate gop = .ok p ∧
          p.Profile = tag ∧ p.Bitrate = 1000 * (bitrate : Int) ∧
          p.Width = w ∧ p.Height = h ∧ p.Fps = num ∧ p.FpsDen = den)) := by
  constructor
  · intro h0
    simp [parmsToProfile, h0]
  · intro w h num den hb hfit hres hfps
    constructor
    · intro hne h1 h2 h3
      have hlen : h264profile.length > 0 := List.length_pos.mpr hne
      have hlook : allowedH264Profiles.lookup h264profile = none := by
        simp only [allowedH264Profiles, List.lookup, beq_eq_false_iff_ne.mpr h1,
          beq_eq_false_iff_ne.mpr h2, beq_eq_false_iff_ne.mpr h3]
      simp only [parmsToProfile, hb, if_false, hres, hfps, hlen, if_true, hlook]
    · intro tag htag
      apply parmsToProfile_tagged formatSeconds resolution h264profile frameRate bitrate gop
        w h num den tag hb hfit hres hfps
      simp only [List.mem_cons, Prod.mk.injEq, List.mem_singleton, List.not_mem_nil,
        or_false] at htag
      rcases htag with ⟨hp, ht⟩ | ⟨hp, ht⟩ | ⟨hp, ht⟩ | ⟨hp, ht⟩ <;> subst hp <;> subst ht
      · exact Or.inl ⟨by decide, by decide⟩
      · exact Or.inl ⟨by decide, by decide⟩
      · exact Or.inl ⟨by decide, by decide⟩
      · exact Or.inr ⟨by decide, rfl⟩

/-- C9 amended, at resolution `1280x720`, frame rate `30`, 2000 Kbit, with the
token `main`, with an unknown token, and with a zero bitrate. -/
theorem parmsToProfile_spec_witness :
    (∃ p, parmsToProfile (fun _ => []) "1280x720".toList "main".toList "30".toList 2000 0
        = .ok p ∧
      p.Profile = "H264Main".toList ∧ p.Bitrate = 1000 * ((2000 : Nat) : Int) ∧
      p.Width = 1280 ∧ p.Height = 720 ∧ p.Fps = 30 ∧ p.FpsDen = 0) ∧
    parmsToProfile (fun _ => []) "1280x720".toList "extended".toList "30".toList 2000 0
      = .error .errH264Profile ∧
    parmsToProfile (fun _ => []) "1280x720".toList "main".toList "30".toList 0 0
      = .error (.message "should also specify bitrate") :=
  ⟨((parmsToProfile_spec (fun _ => []) "1280x720".toList "main".toList "30".toList 2000 0).2
      1280 720 30 0 (by decide) (by decide) (by decide) (by decide)).2
      "H264Main".toList (by decide),
    ((parmsToProfile_spec (fun _ => []) "1280x720".toList "extended".toList "30".toList 2000 0).2
      1280 720 30 0 (by decide) (by decide) (by decide) (by decide)).1
      (by decide) (by decide) (by decide) (by decide),
    (parmsToProfile_spec (fun _ => []) "1280x720".toList "main".toList "30".toList 0 0).1 rfl⟩

/-! ## Bandwidth estimate -/

/-- C6, as stated, fails.  For a first segment of 250 bytes lasting 1.5 s the
code records 2000, the bits divided by the duration truncated to one whole
second, where the stated formula gives 1000; and for a segment lasting 0.5 s
the computation is an integer division by zero. -/
theorem estimateBandwidth_not_specBandwidth :
    estimateBandwidth (List.replicate 250 0) 1500000000 = some 2000 ∧
      specBandwidth 250 1500000000 = 1000 ∧
      estimateBandwidth (List.replicate 250 0) 500000000 = none := by
  decide

/-! ## The segment loop in playlist mode -/

theorem estimateBandwidth_isSome (d : Bytes) (duration : Int)
    (h : durationSeconds duration ≠ 0) :
    estimateBandwidth d duration = some ((estimateBandwidth d duration).getD 0) := by
  simp [estimateBandwidth, h]

/-! ### float64 rounding and the truncated seconds -/

theorem log2Fuel_spec : ∀ (fuel n : Nat), n ≤ fuel → n ≠ 0 →
    2 ^ float64.log2Fuel fuel n ≤ n ∧ n < 2 ^ (float64.log2Fuel fuel n + 1)
  | 0, n, h, h0 => absurd (Nat.le_zero.mp h) h0
  | fuel + 1, n, h, h0 => by
    unfold float64.log2Fuel
    by_cases h2 : n < 2
    · simp only [h2, if_true]
      have : n = 1 := by omega
      subst this; simp
    · simp only [h2, if_false]
      obtain ⟨l, u⟩ := log2Fuel_spec fuel (n / 2) (by omega) (by omega)
      rw [pow_succ] at u
      rw [pow_succ, pow_succ, pow_succ]
      generalize 2 ^ float64.log2Fuel fuel (n / 2) = p at *
      constructor <;> omega

theorem log2_spec (n : Nat) (h : n ≠ 0) :
    2 ^ float64.log2 n ≤ n ∧ n < 2 ^ (float64.log2 n + 1) :=
  log2Fuel_spec n n (le_refl n) h

theorem divRoundEven_cases (a b : Nat) :
    (float64.divRoundEven a b = a / b ∧ 2 * (a % b) ≤ b) ∨
    (float64.divRoundEven a b = a / b + 1 ∧ b ≤ 2 * (a % b)) := by
  unfold float64.divRoundEven
  simp only
  split
  · left; exact ⟨rfl, by omega⟩
  · split
    · right; exact ⟨rfl, by omega⟩
    · split
      · left; exact ⟨rfl, by omega⟩
      · right; exact ⟨rfl, by omega⟩

theorem divRoundEven_ge (a b m : Nat) (hb : 0 < b) (h : m * b ≤ a) :
    m ≤ float64.divRoundEven a b := by
  have hq : m ≤ a / b := (Nat.le_div_iff_mul_le hb).2 h
  rcases divRoundEven_cases a b with ⟨e, _⟩ | ⟨e, _⟩ <;> omega

theorem divRoundEven_le (a b m : Nat) (hb : 0 < b) (h : a ≤ m * b) :
    float64.divRoundEven a b ≤ m := by
  have hdm := Nat.div_add_mod a b
  have hr : a % b < b := Nat.mod_lt a hb
  rcases divRoundEven_cases a b with ⟨e, h2⟩ | ⟨e, h2⟩
  · rw [e]
    exact Nat.div_le_of_le_mul (by rw [Nat.mul_comm]; exact h)
  · rw [e]
    by_contra hlt
    have hm : m ≤ a / b := by omega
    have h3 : m * b ≤ a / b * b := Nat.mul_le_mul_right b hm
    have h4 : b * (a / b) = a / b * b := Nat.mul_comm _ _
    have hpos : 0 < a % b := by omega
    omega

theorem divRoundEven_upper (a b : Nat) (_hb : 0 < b) :
    2 * (float64.divRoundEven a b * b) ≤ 2 * a + b := by
  have hdm := Nat.div_add_mod a b
  have h4 : b * (a / b) = a / b * b := Nat.mul_comm _ _
  rcases divRoundEven_cases a b with ⟨e, h2⟩ | ⟨e, h2⟩
  · rw [e]; omega
  · rw [e, Nat.add_mul]; omega


theorem two_zpow_split (k : Int) :
    ((2 : ℚ) ^ k.toNat) / (2 : ℚ) ^ (-k).toNat = (2 : ℚ) ^ k := by
  rcases le_total 0 k with h | h
  · obtain ⟨n, rfl⟩ := Int.eq_ofNat_of_zero_le h
    simp
  · obtain ⟨n, rfl⟩ := Int.exists_eq_neg_ofNat h
    simp

theorem two_zpow_toNat (k : Int) (h : 0 ≤ k) : (2 : ℚ) ^ k.toNat = (2 : ℚ) ^ k := by
  obtain ⟨n, rfl⟩ := Int.eq_ofNat_of_zero_le h
  simp

theorem scaled_ratio (a b : Nat) (s : Int) :
    ((a * 2 ^ (-s).toNat : Nat) : ℚ) / ((b * 2 ^ s.toNat : Nat) : ℚ) =
      ((a : ℚ) / b) / (2 : ℚ) ^ s := by
  rw [← two_zpow_split s]
  push_cast
  have h1 : (2 : ℚ) ^ s.toNat ≠ 0 := by positivity
  have h2 : (2 : ℚ) ^ (-s).toNat ≠ 0 := by positivity
  by_cases hb : (b : ℚ) = 0
  · simp [hb]
  · field_simp


theorem mant_spec (a b : Nat) (s : Int) (hb : 0 < b) :
    ((float64.divRoundEven (a * 2 ^ (-s).toNat) (b * 2 ^ s.toNat) : Nat) : ℚ) * (2 : ℚ) ^ s
        ≤ (a : ℚ) / b + (2 : ℚ) ^ s / 2 ∧
    (∀ m : Nat, (m : ℚ) * (2 : ℚ) ^ s ≤ (a : ℚ) / b →
      m ≤ float64.divRoundEven (a * 2 ^ (-s).toNat) (b * 2 ^ s.toNat)) ∧
    (∀ m : Nat, (a : ℚ) / b ≤ (m : ℚ) * (2 : ℚ) ^ s →
      float64.divRoundEven (a * 2 ^ (-s).toNat) (b * 2 ^ s.toNat) ≤ m) := by
  have hr := scaled_ratio a b s
  generalize ha' : a * 2 ^ (-s).toNat = A at hr ⊢
  have hBpos : 0 < b * 2 ^ s.toNat := Nat.mul_pos hb (by positivity)
  generalize hb' : b * 2 ^ s.toNat = B at hr hBpos ⊢
  have hBq : (0 : ℚ) < (B : ℚ) := by exact_mod_cast hBpos
  have hs : (0 : ℚ) < (2 : ℚ) ^ s := by positivity
  generalize ((a : ℚ) / b) = y at hr ⊢
  have hy : y = (A : ℚ) / B * (2 : ℚ) ^ s := by
    rw [hr]; field_simp
  refine ⟨?_, ?_, ?_⟩
  · have hu := divRoundEven_upper A B hBpos
    have huq : (2 : ℚ) * ((float64.divRoundEven A B : Nat) * (B : ℚ)) ≤ 2 * A + B := by
      exact_mod_cast hu
    have h1 : ((float64.divRoundEven A B : Nat) : ℚ) ≤ (A : ℚ) / B + 1 / 2 := by
      rw [div_add_div _ _ (ne_of_gt hBq) (by norm_num), le_div_iff₀ (by positivity)]
      linarith
    calc ((float64.divRoundEven A B : Nat) : ℚ) * (2 : ℚ) ^ s
        ≤ ((A : ℚ) / B + 1 / 2) * (2 : ℚ) ^ s := mul_le_mul_of_nonneg_right h1 (le_of_lt hs)
      _ = y + (2 : ℚ) ^ s / 2 := by rw [hy]; ring
  · intro m hm
    apply divRoundEven_ge A B m hBpos
    have h1 : (m : ℚ) ≤ (A : ℚ) / B := by
      rw [hy] at hm
      exact le_of_mul_le_mul_right hm hs
    rw [le_div_iff₀ hBq] at h1
    exact_mod_cast h1
  · intro m hm
    apply divRoundEven_le A B m hBpos
    have h1 : (A : ℚ) / B ≤ (m : ℚ) := by
      rw [hy] at hm
      exact le_of_mul_le_mul_right hm hs
    rw [div_le_iff₀ hBq] at h1
    exact_mod_cast h1

theorem exp_spec (a b : Nat) (ha : 0 < a) (hb : 0 < b) (e : Int)
    (he : e = if b * 2 ^ ((float64.log2 a : Int) - (float64.log2 b : Int)).toNat
                ≤ a * 2 ^ (-((float64.log2 a : Int) - (float64.log2 b : Int))).toNat
              then (float64.log2 a : Int) - (float64.log2 b : Int)
              else (float64.log2 a : Int) - (float64.log2 b : Int) - 1) :
    (2 : ℚ) ^ e ≤ (a : ℚ) / b ∧ (a : ℚ) / b < (2 : ℚ) ^ (e + 1) := by
  obtain ⟨hal, hau⟩ := log2_spec a (ne_of_gt ha)
  obtain ⟨hbl, hbu⟩ := log2_spec b (ne_of_gt hb)
  generalize float64.log2 a = la at *
  generalize float64.log2 b = lb at *
  have haq : (0 : ℚ) < a := by exact_mod_cast ha
  have hbq : (0 : ℚ) < b := by exact_mod_cast hb
  have halq : (2 : ℚ) ^ (la : Int) ≤ a := by
    rw [zpow_natCast]; exact_mod_cast hal
  have hauq : (a : ℚ) < (2 : ℚ) ^ ((la : Int) + 1) := by
    have : (a : ℚ) < (2 : ℚ) ^ (la + 1) := by exact_mod_cast hau
    rw [← zpow_natCast] at this; push_cast at this; exact this
  have hblq : (2 : ℚ) ^ (lb : Int) ≤ b := by
    rw [zpow_natCast]; exact_mod_cast hbl
  have hbuq : (b : ℚ) < (2 : ℚ) ^ ((lb : Int) + 1) := by
    have : (b : ℚ) < (2 : ℚ) ^ (lb + 1) := by exact_mod_cast hbu
    rw [← zpow_natCast] at this; push_cast at this; exact this
  have hlow : (2 : ℚ) ^ ((la : Int) - lb - 1) ≤ (a : ℚ) / b := by
    rw [le_div_iff₀ hbq]
    calc (2 : ℚ) ^ ((la : Int) - lb - 1) * b
        ≤ (2 : ℚ) ^ ((la : Int) - lb - 1) * (2 : ℚ) ^ ((lb : Int) + 1) :=
          mul_le_mul_of_nonneg_left (le_of_lt hbuq) (by positivity)
      _ = (2 : ℚ) ^ (la : Int) := by
          rw [← zpow_add₀ (by norm_num : (2 : ℚ) ≠ 0)]; congr 1; ring
      _ ≤ a := halq
  have hup : (a : ℚ) / b < (2 : ℚ) ^ ((la : Int) - lb + 1) := by
    rw [div_lt_iff₀ hbq]
    calc (a : ℚ) < (2 : ℚ) ^ ((la : Int) + 1) := hauq
      _ = (2 : ℚ) ^ ((la : Int) - lb + 1) * (2 : ℚ) ^ (lb : Int) := by
          rw [← zpow_add₀ (by norm_num : (2 : ℚ) ≠ 0)]; congr 1; ring
      _ ≤ (2 : ℚ) ^ ((la : Int) - lb + 1) * b :=
          mul_le_mul_of_nonneg_left hblq (by positivity)
  have hcond : (b * 2 ^ ((la : Int) - (lb : Int)).toNat
      ≤ a * 2 ^ (-((la : Int) - (lb : Int))).toNat) ↔
      (2 : ℚ) ^ ((la : Int) - lb) ≤ (a : ℚ) / b := by
    rw [← two_zpow_split ((la : Int) - lb),
      div_le_div_iff₀ (by positivity) hbq]
    constructor
    · intro h
      have : ((b * 2 ^ ((la : Int) - (lb : Int)).toNat : Nat) : ℚ)
          ≤ ((a * 2 ^ (-((la : Int) - (lb : Int))).toNat : Nat) : ℚ) := by exact_mod_cast h
      push_cast at this
      linarith
    · intro h
      have : ((b * 2 ^ ((la : Int) - (lb : Int)).toNat : Nat) : ℚ)
          ≤ ((a * 2 ^ (-((la : Int) - (lb : Int))).toNat : Nat) : ℚ) := by
        push_cast; linarith
      exact_mod_cast this
  by_cases hc : b * 2 ^ ((la : Int) - (lb : Int)).toNat
      ≤ a * 2 ^ (-((la : Int) - (lb : Int))).toNat
  · rw [if_pos hc] at he
    subst he
    exact ⟨hcond.1 hc, hup⟩
  · rw [if_neg hc] at he
    subst he
    refine ⟨hlow, ?_⟩
    have h2 : ¬ (2 : ℚ) ^ ((la : Int) - lb) ≤ (a : ℚ) / b := fun h => hc (hcond.2 h)
    have h3 : (la : Int) - lb - 1 + 1 = (la : Int) - lb := by ring
    rw [h3]
    exact lt_of_not_le h2

theorem round_spec (a b : Nat) (ha : 0 < a) (hb : 0 < b) :
    (2 : ℚ) ^ ((float64.round a b).exp + 52) ≤ (a : ℚ) / b ∧
    (a : ℚ) / b < (2 : ℚ) ^ ((float64.round a b).exp + 53) ∧
    (float64.round a b).val ≤ (a : ℚ) / b + (2 : ℚ) ^ (float64.round a b).exp / 2 ∧
    (∀ m : Nat, (m : ℚ) * (2 : ℚ) ^ (float64.round a b).exp ≤ (a : ℚ) / b →
      m ≤ (float64.round a b).mant) ∧
    (∀ m : Nat, (a : ℚ) / b ≤ (m : ℚ) * (2 : ℚ) ^ (float64.round a b).exp →
      (float64.round a b).mant ≤ m) := by
  have he := exp_spec a b ha hb _ rfl
  unfold float64.round float64.F.val
  simp only [if_neg (ne_of_gt ha)]
  generalize (if b * 2 ^ ((float64.log2 a : Int) - (float64.log2 b : Int)).toNat
                ≤ a * 2 ^ (-((float64.log2 a : Int) - (float64.log2 b : Int))).toNat
              then (float64.log2 a : Int) - (float64.log2 b : Int)
              else (float64.log2 a : Int) - (float64.log2 b : Int) - 1) = e at he ⊢
  have h52 : e - 52 + 52 = e := by ring
  have h53 : e - 52 + 53 = e + 1 := by ring
  rw [h52, h53]
  exact ⟨he.1, he.2, mant_spec a b (e - 52) hb⟩


theorem two_zpow_lt_imp (e k : Int) (h : (2 : ℚ) ^ e < (2 : ℚ) ^ k) : e < k := by
  by_contra hc
  have hke : k ≤ e := not_lt.mp hc
  have := zpow_le_zpow_right₀ (by norm_num : (1 : ℚ) ≤ 2) hke
  exact absurd h (not_lt.mpr this)

theorem round_zero (b : Nat) : float64.round 0 b = ⟨0, 0⟩ := by
  simp [float64.round]

theorem val_nonneg (x : float64.F) : 0 ≤ x.val := by
  unfold float64.F.val; positivity

theorem val_eq_zero (x : float64.F) (h : x.mant = 0) : x.val = 0 := by
  unfold float64.F.val; rw [h]; simp

theorem val_pos (x : float64.F) (h : 0 < x.mant) : 0 < x.val := by
  unfold float64.F.val
  have : (0 : ℚ) < x.mant := by exact_mod_cast h
  positivity

theorem round_ge_one (a b : Nat) (ha : 0 < a) (hb : 0 < b) (h : (1 : ℚ) ≤ (a : ℚ) / b) :
    1 ≤ (float64.round a b).val := by
  obtain ⟨_, h2, _, h4, _⟩ := round_spec a b ha hb
  have h1 := round_spec a b ha hb
  obtain ⟨h1, _⟩ := h1
  have hs : (0 : Int) < (float64.round a b).exp + 53 := by
    apply two_zpow_lt_imp
    rw [zpow_zero]
    exact lt_of_le_of_lt h h2
  have hm : 2 ^ 52 ≤ (float64.round a b).mant := by
    apply h4
    have : (((2 ^ 52 : Nat) : ℚ)) * (2 : ℚ) ^ (float64.round a b).exp
        = (2 : ℚ) ^ ((float64.round a b).exp + 52) := by
      rw [zpow_add₀ (by norm_num : (2 : ℚ) ≠ 0)]
      push_cast
      rw [mul_comm]; norm_num
    rw [this]; exact h1
  unfold float64.F.val
  have hmq : ((2 : ℚ) ^ 52 : ℚ) ≤ ((float64.round a b).mant : ℚ) := by exact_mod_cast hm
  have hpos : (0 : ℚ) < (2 : ℚ) ^ (float64.round a b).exp := by positivity
  calc (1 : ℚ) = (2 : ℚ) ^ (0 : Int) := by simp
    _ ≤ (2 : ℚ) ^ ((float64.round a b).exp + 52) :=
        zpow_le_zpow_right₀ (by norm_num) (by omega)
    _ = (2 : ℚ) ^ 52 * (2 : ℚ) ^ (float64.round a b).exp := by
        rw [zpow_add₀ (by norm_num : (2 : ℚ) ≠ 0)]; rw [mul_comm]; norm_num
    _ ≤ ((float64.round a b).mant : ℚ) * (2 : ℚ) ^ (float64.round a b).exp :=
        mul_le_mul_of_nonneg_right hmq (le_of_lt hpos)

theorem trunc_eq_floor (x : float64.F) : float64.trunc x = ⌊x.val⌋₊ := by
  unfold float64.trunc float64.F.val
  rw [← two_zpow_split x.exp, ← mul_div_assoc]
  have : ((x.mant : ℚ) * (2 : ℚ) ^ x.exp.toNat) / (2 : ℚ) ^ (-x.exp).toNat
      = ((x.mant * 2 ^ x.exp.toNat : Nat) : ℚ) / ((2 ^ (-x.exp).toNat : Nat) : ℚ) := by
    push_cast; rfl
  rw [this, Nat.floor_div_eq_div]

theorem ofNat_val (k : Nat) (hk : k < 2 ^ 53) : (float64.ofNat k).val = k := by
  unfold float64.ofNat
  rcases Nat.eq_zero_or_pos k with h0 | hpos
  · subst h0; rw [round_zero]; simp [float64.F.val]
  · obtain ⟨h1, _, _, h4, h5⟩ := round_spec k 1 hpos (by norm_num)
    generalize float64.round k 1 = r at *
    simp only [Nat.cast_one, div_one] at h1 h4 h5
    have hkq : (k : ℚ) < (2 : ℚ) ^ (53 : Int) := by
      rw [show (53 : Int) = ((53 : Nat) : Int) from rfl, zpow_natCast]
      exact_mod_cast hk
    have hs : r.exp + 52 < 53 := two_zpow_lt_imp _ _ (lt_of_le_of_lt h1 hkq)
    have hs0 : 0 ≤ -r.exp := by omega
    have hmul : ((k * 2 ^ (-r.exp).toNat : Nat) : ℚ) * (2 : ℚ) ^ r.exp = k := by
      push_cast
      rw [two_zpow_toNat _ hs0, mul_assoc, ← zpow_add₀ (by norm_num : (2 : ℚ) ≠ 0)]
      simp
    have e1 := h4 (k * 2 ^ (-r.exp).toNat) (le_of_eq hmul)
    have e2 := h5 (k * 2 ^ (-r.exp).toNat) (le_of_eq hmul.symm)
    have e : r.mant = k * 2 ^ (-r.exp).toNat := le_antisymm e2 e1
    unfold float64.F.val
    rw [e]; exact hmul

theorem div_arg (x y : float64.F) (hy : 0 < y.mant) :
    ((x.mant * 2 ^ (x.exp - y.exp).toNat : Nat) : ℚ)
      / ((y.mant * 2 ^ (y.exp - x.exp).toNat : Nat) : ℚ) = x.val / y.val := by
  have h := scaled_ratio x.mant y.mant (y.exp - x.exp)
  rw [neg_sub] at h
  rw [h]
  unfold float64.F.val
  have hyq : (y.mant : ℚ) ≠ 0 := by
    have : (0 : ℚ) < y.mant := by exact_mod_cast hy
    exact ne_of_gt this
  rw [zpow_sub₀ (by norm_num : (2 : ℚ) ≠ 0)]
  have h1 : (2 : ℚ) ^ x.exp ≠ 0 := by positivity
  have h2 : (2 : ℚ) ^ y.exp ≠ 0 := by positivity
  field_simp

theorem add_arg (x y : float64.F) :
    (((x.mant * 2 ^ (x.exp - min x.exp y.exp).toNat
        + y.mant * 2 ^ (y.exp - min x.exp y.exp).toNat) * 2 ^ (min x.exp y.exp).toNat : Nat) : ℚ)
      / ((2 ^ (-(min x.exp y.exp)).toNat : Nat) : ℚ) = x.val + y.val := by
  have hx : 0 ≤ x.exp - min x.exp y.exp := by
    have := min_le_left x.exp y.exp; omega
  have hy : 0 ≤ y.exp - min x.exp y.exp := by
    have := min_le_right x.exp y.exp; omega
  generalize min x.exp y.exp = m at hx hy ⊢
  push_cast
  rw [mul_div_assoc, two_zpow_split, two_zpow_toNat _ hx, two_zpow_toNat _ hy]
  unfold float64.F.val
  rw [add_mul, mul_assoc, mul_assoc, ← zpow_add₀ (by norm_num : (2 : ℚ) ≠ 0),
    ← zpow_add₀ (by norm_num : (2 : ℚ) ≠ 0)]
  simp


theorem add_ge_one (x y : float64.F) (hx : 1 ≤ x.val) : 1 ≤ (float64.add x y).val := by
  have harg := add_arg x y
  unfold float64.add
  dsimp only
  generalize (x.mant * 2 ^ (x.exp - min x.exp y.exp).toNat
        + y.mant * 2 ^ (y.exp - min x.exp y.exp).toNat) * 2 ^ (min x.exp y.exp).toNat = A
    at harg ⊢
  have hBpos : 0 < 2 ^ (-(min x.exp y.exp)).toNat := by positivity
  generalize 2 ^ (-(min x.exp y.exp)).toNat = B at harg hBpos ⊢
  have hsum : (1 : ℚ) ≤ (A : ℚ) / B := by
    rw [harg]; have := val_nonneg y; linarith
  have hApos : 0 < A := by
    rcases Nat.eq_zero_or_pos A with h0 | h0
    · subst h0; simp at hsum; linarith
    · exact h0
  exact round_ge_one A B hApos hBpos hsum

theorem div_small (x y : float64.F) (hy : 0 < y.mant) (h : x.val / y.val < 1) :
    (float64.div x y).val ≤ x.val / y.val + 1 / 2 ^ 54 := by
  have harg := div_arg x y hy
  have hx0 := val_nonneg x
  have hy0 := val_pos y hy
  unfold float64.div
  have hBpos : 0 < y.mant * 2 ^ (y.exp - x.exp).toNat := Nat.mul_pos hy (by positivity)
  generalize y.mant * 2 ^ (y.exp - x.exp).toNat = B at harg hBpos ⊢
  generalize hA : x.mant * 2 ^ (x.exp - y.exp).toNat = A at harg ⊢
  have hr0 : 0 ≤ x.val / y.val := div_nonneg hx0 (le_of_lt hy0)
  rcases Nat.eq_zero_or_pos A with h0 | hApos
  · subst h0
    rw [round_zero]
    have : (⟨0, 0⟩ : float64.F).val = 0 := val_eq_zero _ rfl
    rw [this]; positivity
  · obtain ⟨h1, _, h3, _, _⟩ := round_spec A B hApos hBpos
    rw [harg] at h1 h3
    have hs : (float64.round A B).exp + 52 < 0 := by
      apply two_zpow_lt_imp
      rw [zpow_zero]
      exact lt_of_le_of_lt h1 h
    have hle : (2 : ℚ) ^ (float64.round A B).exp ≤ (2 : ℚ) ^ (-53 : Int) :=
      zpow_le_zpow_right₀ (by norm_num) (by omega)
    have h53 : (2 : ℚ) ^ (-53 : Int) = 1 / 2 ^ 53 := by
      rw [zpow_neg]; norm_num
    rw [h53] at hle
    have : (2 : ℚ) ^ (float64.round A B).exp / 2 ≤ 1 / 2 ^ 54 := by
      have e : (1 : ℚ) / 2 ^ 54 = (1 / 2 ^ 53) / 2 := by norm_num
      rw [e]; linarith
    linarith

theorem add_trunc (x y : float64.F) (S : Nat) (hS : S < 2 ^ 24) (hx : x.val = S)
    (hy : y.val ≤ 999999999 / 1000000000 + 1 / 2 ^ 54) :
    float64.trunc (float64.add x y) = S := by
  have harg := add_arg x y
  have hy0 := val_nonneg y
  rw [trunc_eq_floor]
  unfold float64.add
  dsimp only
  generalize (x.mant * 2 ^ (x.exp - min x.exp y.exp).toNat
        + y.mant * 2 ^ (y.exp - min x.exp y.exp).toNat) * 2 ^ (min x.exp y.exp).toNat = A
    at harg ⊢
  have hBpos : 0 < 2 ^ (-(min x.exp y.exp)).toNat := by positivity
  generalize 2 ^ (-(min x.exp y.exp)).toNat = B at harg hBpos ⊢
  have hBq : (0 : ℚ) < B := by exact_mod_cast hBpos
  rw [hx] at harg
  have hSq : (S : ℚ) + 1 ≤ (2 : ℚ) ^ (24 : Int) := by
    rw [show (24 : Int) = ((24 : Nat) : Int) from rfl, zpow_natCast]
    have : S + 1 ≤ 2 ^ 24 := hS
    exact_mod_cast this
  rcases Nat.eq_zero_or_pos A with h0 | hApos
  · subst h0
    rw [round_zero]
    have hz : (⟨0, 0⟩ : float64.F).val = 0 := val_eq_zero _ rfl
    rw [hz]
    simp only [Nat.cast_zero, zero_div] at harg
    have hS0 : (S : ℚ) = 0 := by
      have : (0 : ℚ) ≤ (S : ℚ) := Nat.cast_nonneg S
      linarith
    have : S = 0 := by exact_mod_cast hS0
    subst this; simp
  · obtain ⟨h1, _, h3, h4, _⟩ := round_spec A B hApos hBpos
    rw [harg] at h1 h3 h4
    generalize float64.round A B = r at *
    have hXlt : (S : ℚ) + y.val < (2 : ℚ) ^ (24 : Int) := by
      have : (999999999 : ℚ) / 1000000000 + 1 / 2 ^ 54 < 1 := by norm_num
      linarith
    have hs : r.exp + 52 < 24 := two_zpow_lt_imp _ _ (lt_of_le_of_lt h1 hXlt)
    have hs0 : 0 ≤ -r.exp := by omega
    have hmul : ((S * 2 ^ (-r.exp).toNat : Nat) : ℚ) * (2 : ℚ) ^ r.exp = S := by
      push_cast
      rw [two_zpow_toNat _ hs0, mul_assoc, ← zpow_add₀ (by norm_num : (2 : ℚ) ≠ 0)]
      simp
    have e1 := h4 (S * 2 ^ (-r.exp).toNat) (by rw [hmul]; linarith)
    have hpos : (0 : ℚ) < (2 : ℚ) ^ r.exp := by positivity
    have hlow : (S : ℚ) ≤ r.val := by
      unfold float64.F.val
      have e1q : ((S * 2 ^ (-r.exp).toNat : Nat) : ℚ) ≤ (r.mant : ℚ) := by exact_mod_cast e1
      calc (S : ℚ) = ((S * 2 ^ (-r.exp).toNat : Nat) : ℚ) * (2 : ℚ) ^ r.exp := hmul.symm
        _ ≤ (r.mant : ℚ) * (2 : ℚ) ^ r.exp := mul_le_mul_of_nonneg_right e1q (le_of_lt hpos)
    have hle : (2 : ℚ) ^ r.exp ≤ (2 : ℚ) ^ (-29 : Int) :=
      zpow_le_zpow_right₀ (by norm_num) (by omega)
    have h29 : (2 : ℚ) ^ (-29 : Int) = 1 / 2 ^ 29 := by
      rw [zpow_neg]; norm_num
    rw [h29] at hle
    have hup : r.val < (S : ℚ) + 1 := by
      have : (999999999 : ℚ) / 1000000000 + 1 / 2 ^ 54 + (1 / 2 ^ 29) / 2 < 1 := by norm_num
      linarith
    rw [Nat.floor_eq_iff (val_nonneg r)]
    exact ⟨hlow, hup⟩

theorem Seconds_trunc_exact (m : Nat) (h : m < 16777216 * 1000000000) :
    float64.trunc (Seconds m) = m / 1000000000 := by
  unfold Seconds
  have hS : m / 1000000000 < 2 ^ 24 := by
    rw [Nat.div_lt_iff_lt_mul (by norm_num)]; exact h
  have hN : m % 1000000000 < 1000000000 := Nat.mod_lt _ (by norm_num)
  apply add_trunc _ _ _ hS
  · exact ofNat_val _ (lt_trans hS (by norm_num))
  · have h9 : float64.ofNat 1000000000 = ⟨8388608000000000, -23⟩ := by decide
    have hv9 : (float64.ofNat 1000000000).val = ((1000000000 : Nat) : ℚ) :=
      ofNat_val _ (by norm_num)
    have hvN : (float64.ofNat (m % 1000000000)).val = ((m % 1000000000 : Nat) : ℚ) :=
      ofNat_val _ (lt_trans hN (by norm_num))
    have hm9 : 0 < (float64.ofNat 1000000000).mant := by rw [h9]; decide
    have hNq : ((m % 1000000000 : Nat) : ℚ) ≤ 999999999 := by
      have : m % 1000000000 ≤ 999999999 := by omega
      exact_mod_cast this
    have hratio : (float64.ofNat (m % 1000000000)).val / (float64.ofNat 1000000000).val
        ≤ 999999999 / 1000000000 := by
      rw [hv9, hvN]
      push_cast
      rw [div_le_div_iff₀ (by norm_num) (by norm_num)]
      linarith
    have hsmall := div_small _ _ hm9 (lt_of_le_of_lt hratio (by norm_num))
    linarith

theorem Seconds_trunc_pos (m : Nat) (h : 1000000000 ≤ m) : 1 ≤ float64.trunc (Seconds m) := by
  unfold Seconds
  rw [trunc_eq_floor]
  apply Nat.le_floor
  rw [Nat.cast_one]
  apply add_ge_one
  unfold float64.ofNat
  have hS : 1 ≤ m / 1000000000 := (Nat.le_div_iff_mul_le (by norm_num)).2 (by omega)
  apply round_ge_one _ _ hS (by norm_num)
  simp only [Nat.cast_one, div_one]
  exact_mod_cast hS

theorem durationSeconds_ne_zero (d : Int) (h : 1000000000 ≤ d) : durationSeconds d ≠ 0 := by
  unfold durationSeconds
  rw [if_neg (by omega)]
  have := Seconds_trunc_pos d.natAbs (by omega)
  omega

theorem durationSeconds_exact (d : Int) (h0 : 0 ≤ d) (h : d < 16777216 * 1000000000) :
    durationSeconds d = d / 1000000000 := by
  unfold durationSeconds
  rw [if_neg (by omega), Seconds_trunc_exact d.natAbs (by omega)]
  obtain ⟨n, rfl⟩ := Int.eq_ofNat_of_zero_le h0
  simp

/-- From `2^24` seconds on, the `float64` sum in `Seconds()` can round up to
the next whole second: for 16777216.999999999 s the truncated value is
16777217, one more than the integer quotient. -/
theorem durationSeconds_rounds_up :
    durationSeconds 16777216999999999 = 16777217 ∧
      (16777216999999999 : Int) / 1000000000 = 16777216 := by
  decide

theorem playlistSegment_ok (w : World) (dst : GoString) (presets : List GoString)
    (seg : HlsSegment) (i : Nat) (d : Bytes) (st : LoopState) (b : Int)
    (l : List MediaSegment) (preset : GoString)
    (hb : st.bandwidths[i]? = some b) (hl : st.mediaSegments[i]? = some l)
    (hp : presets[i]? = some preset) (hsecs : b = 0 → durationSeconds seg.Duration ≠ 0)
    (hw : w.WriteFile (addPathFrom dst (segFileName dst preset seg.SeqNo)) d = none) :
    ∃ st', playlistSegment w dst presets seg i d st = .ok st' ∧
      st'.consumed = st.consumed ∧
      st'.bandwidths.length = st.bandwidths.length ∧
      st'.mediaSegments.length = st.mediaSegments.length ∧
      st'.bandwidths[i]? = some (if b = 0 then (estimateBandwidth d seg.Duration).getD 0 else b) ∧
      st'.mediaSegments[i]? = some (l ++ [mkMediaSegment dst preset seg]) ∧
      (∀ r, r ≠ i → st'.bandwidths[r]? = st.bandwidths[r]? ∧
        st'.mediaSegments[r]? = st.mediaSegments[r]?) := by
  have hib : i < st.bandwidths.length := by
    rcases List.getElem?_eq_some.mp hb with ⟨h, _⟩; exact h
  have hil : i < st.mediaSegments.length := by
    rcases List.getElem?_eq_some.mp hl with ⟨h, _⟩; exact h
  have hw' : w.WriteFile (addPathFrom dst (mkMediaSegment dst preset seg).URI) d = none := hw
  by_cases hb0 : b = 0
  · refine ⟨{ st with
        err := none
        bandwidths := st.bandwidths.set i ((estimateBandwidth d seg.Duration).getD 0)
        mediaSegments := st.mediaSegments.set i (l ++ [mkMediaSegment dst preset seg])
        writtenFiles := st.writtenFiles ++ [addPathFrom dst (mkMediaSegment dst preset seg).URI] },
      ?_, rfl, by simp, by simp, ?_, ?_, ?_⟩
    · obtain ⟨v, hv⟩ : ∃ v, estimateBandwidth d seg.Duration = some v :=
        ⟨_, estimateBandwidth_isSome d _ (hsecs hb0)⟩
      simp only [playlistSegment, hb, hb0, if_true, hv, hp, hl, hw', Option.getD_some]
    · simp [hb0, List.getElem?_set, hib]
    · simp [List.getElem?_set, hil]
    · intro r hr
      have hr' : i ≠ r := fun e => hr e.symm
      simp [List.getElem?_set, hr']
  · refine ⟨{ st with
        err := none
        mediaSegments := st.mediaSegments.set i (l ++ [mkMediaSegment dst preset seg])
        writtenFiles := st.writtenFiles ++ [addPathFrom dst (mkMediaSegment dst preset seg).URI] },
      ?_, rfl, rfl, by simp, ?_, ?_, ?_⟩
    · simp only [playlistSegment, hb, hb0, if_false, hp, hl, hw']
    · simp [hb0, hb]
    · simp [List.getElem?_set, hil]
    · intro r hr
      have hr' : i ≠ r := fun e => hr e.symm
      simp [List.getElem?_set, hr']

/-- C6, amended: for a first segment of `L` bytes whose duration `d` is at
least one second and less than `2^24` seconds (16777216 s), the bandwidth
recorded is `floor(8 L / s)` rounded down to the nearest multiple of 1000,
where `s = floor(d / 10^9)` is the duration truncated to whole seconds (on
this range the truncated `float64` value of `Seconds()` is this quotient);
the computation is defined for every such segment, and the loop body stores
this value for a rendition whose bandwidth is still zero. -/
theorem estimateBandwidth_spec (segData : Bytes) (d : Int) (hd : 1000000000 ≤ d)
    (hmax : d < 16777216 * 1000000000) :
    ∃ b, estimateBandwidth segData d = some b ∧
      b = (8 * (segData.length : Int) / (d / 1000000000)) / 1000 * 1000 ∧
      1000 ∣ b ∧ b ≤ 8 * (segData.length : Int) / (d / 1000000000) ∧
      8 * (segData.length : Int) / (d / 1000000000) < b + 1000 ∧
      ∀ (w : World) (dst : GoString) (presets : List GoString) (seg : HlsSegment) (i : Nat)
        (st : LoopState) (l : List MediaSegment) (preset : GoString),
        seg.Duration = d → st.bandwidths[i]? = some 0 → st.mediaSegments[i]? = some l →
        presets[i]? = some preset →
        w.WriteFile (addPathFrom dst (segFileName dst preset seg.SeqNo)) segData = none →
        ∃ st', playlistSegment w dst presets seg i segData st = .ok st' ∧
          st'.bandwidths[i]? = some b := by
  have hsecs : durationSeconds d = d / 1000000000 :=
    durationSeconds_exact d (by omega) hmax
  have hpos : 0 < d / 1000000000 := by omega
  have hne : d / 1000000000 ≠ 0 := by omega
  have hq : 0 ≤ (segData.length : Int) * 8 / (d / 1000000000) :=
    Int.ediv_nonneg (by omega) (by omega)
  have hbw : Int.tdiv ((segData.length : Int) * 8) (d / 1000000000)
      = 8 * (segData.length : Int) / (d / 1000000000) := by
    rw [Int.tdiv_eq_ediv (by omega) (by omega), Int.mul_comm]
  have hq' : 0 ≤ 8 * (segData.length : Int) / (d / 1000000000) := by
    rw [Int.mul_comm]; exact hq
  have hcall : estimateBandwidth segData d
      = some (8 * (segData.length : Int) / (d / 1000000000)
          - (8 * (segData.length : Int) / (d / 1000000000)) % 1000) := by
    have hmod := Int.tmod_eq_emod hq' (show (0 : Int) ≤ 1000 by decide)
    simp only [estimateBandwidth, hsecs, hne, if_false, hbw, hmod]
  refine ⟨_, hcall, ?_, ?_, ?_, ?_, ?_⟩
  · generalize 8 * (segData.length : Int) / (d / 1000000000) = q at hq'
    omega
  · generalize 8 * (segData.length : Int) / (d / 1000000000) = q at hq'
    exact ⟨q / 1000, by omega⟩
  · generalize 8 * (segData.length : Int) / (d / 1000000000) = q at hq'
    omega
  · generalize 8 * (segData.length : Int) / (d / 1000000000) = q at hq'
    omega
  · intro w dst presets seg i st l preset hdur hb hl hp hw
    subst hdur
    obtain ⟨st', hst', -, -, -, hb', -⟩ :=
      playlistSegment_ok w dst presets seg i segData st 0 l preset hb hl hp
        (fun _ => durationSeconds_ne_zero _ hd) hw
    refine ⟨st', hst', ?_⟩
    rw [hb', hcall]
    simp

/-- C6 amended, at a segment of 250 bytes lasting 1.5 s. -/
theorem estimateBandwidth_spec_witness :
    ∃ b, estimateBandwidth (List.replicate 250 0) 1500000000 = some b ∧ b = 2000 := by
  obtain ⟨b, hb, hval, -⟩ := estimateBandwidth_spec (List.replicate 250 0) 1500000000 (by decide)
    (by decide)
  refine ⟨b, hb, ?_⟩
  rw [hval]
  decide

theorem rangeTranscoded_playlist (w : World) (dst : GoString) (presets : List GoString)
    (seg : HlsSegment) :
    ∀ (ds : List Bytes) (i : Nat) (st : LoopState),
      (durationSeconds seg.Duration ≠ 0 ∨ ∀ (r : Nat) (b : Int), st.bandwidths[r]? = some b → b ≠ 0) →
      (∀ (k : Nat) (d : Bytes), ds[k]? = some d →
        ∃ preset, presets[i + k]? = some preset ∧
          w.WriteFile (addPathFrom dst (segFileName dst preset seg.SeqNo)) d = none) →
      i + ds.length ≤ st.bandwidths.length → i + ds.length ≤ st.mediaSegments.length →
      ∃ st', rangeTranscoded (playlistSegment w dst presets seg) i ds st = .ok st' ∧
        st'.consumed = st.consumed ∧
        st'.bandwidths.length = st.bandwidths.length ∧
        st'.mediaSegments.length = st.mediaSegments.length ∧
        (∀ r, (r < i ∨ i + ds.length ≤ r) → st'.bandwidths[r]? = st.bandwidths[r]? ∧
          st'.mediaSegments[r]? = st.mediaSegments[r]?) ∧
        (∀ (k : Nat) (d : Bytes) (b : Int) (l : List MediaSegment) (preset : GoString),
          ds[k]? = some d → st.bandwidths[i + k]? = some b →
          st.mediaSegments[i + k]? = some l → presets[i + k]? = some preset →
          st'.bandwidths[i + k]?
            = some (if b = 0 then (estimateBandwidth d seg.Duration).getD 0 else b) ∧
          st'.mediaSegments[i + k]? = some (l ++ [mkMediaSegment dst preset seg])) := by
  intro ds
  induction ds with
  | nil =>
    intro i st _ _ _ _
    exact ⟨st, rfl, rfl, rfl, rfl, fun _ _ => ⟨rfl, rfl⟩,
      fun k d b l preset hd => by simp at hd⟩
  | cons d0 ds' ih =>
    intro i st hsecs hyp hbl hml
    simp only [List.length_cons] at hbl hml
    obtain ⟨preset0, hp0, hw0⟩ := hyp 0 d0 (by simp)
    simp only [Nat.add_zero] at hp0
    have hib : i < st.bandwidths.length := by omega
    have hil : i < st.mediaSegments.length := by omega
    have hb0 : st.bandwidths[i]? = some st.bandwidths[i] := List.getElem?_eq_getElem hib
    have hl0 : st.mediaSegments[i]? = some st.mediaSegments[i] := List.getElem?_eq_getElem hil
    have hsecs0 : st.bandwidths[i] = 0 → durationSeconds seg.Duration ≠ 0 := by
      intro hz
      rcases hsecs with h | h
      · exact h
      · exact absurd hz (h i _ hb0)
    obtain ⟨st1, h1, hc1, hbl1, hml1, hb1, hm1, hother1⟩ :=
      playlistSegment_ok w dst presets seg i d0 st _ _ preset0 hb0 hl0 hp0 hsecs0 hw0
    have hsecs1 : durationSeconds seg.Duration ≠ 0 ∨
        ∀ (r : Nat) (b : Int), st1.bandwidths[r]? = some b → b ≠ 0 := by
      rcases hsecs with h | h
      · exact Or.inl h
      · right
        intro r b hr
        by_cases hri : r = i
        · subst hri
          have hne := h r _ hb0
          rw [hb1] at hr
          simp only [hne, if_false, Option.some.injEq] at hr
          rw [← hr]
          exact hne
        · rw [(hother1 r hri).1] at hr
          exact h r b hr
    have hyp' : ∀ (k : Nat) (d : Bytes), ds'[k]? = some d →
        ∃ preset, presets[i + 1 + k]? = some preset ∧
          w.WriteFile (addPathFrom dst (segFileName dst preset seg.SeqNo)) d = none := by
      intro k d hd
      have := hyp (k + 1) d (by simpa using hd)
      rwa [show i + (k + 1) = i + 1 + k by omega] at this
    obtain ⟨st2, h2, hc2, hbl2, hml2, hsame2, hupd2⟩ :=
      ih (i + 1) st1 hsecs1 hyp' (by omega) (by omega)
    refine ⟨st2, ?_, by omega, by omega, by omega, ?_, ?_⟩
    · simp only [rangeTranscoded, h1, h2]
    · intro r hr
      have hr1 : r < i + 1 ∨ i + 1 + ds'.length ≤ r := by
        simp only [List.length_cons] at hr; omega
      have hri : r ≠ i := by
        simp only [List.length_cons] at hr; omega
      obtain ⟨ha, hb⟩ := hsame2 r hr1
      obtain ⟨hc, hd⟩ := hother1 r hri
      exact ⟨ha.trans hc, hb.trans hd⟩
    · intro k d b l preset hd hb hl hp
      cases k with
      | zero =>
        simp only [Nat.add_zero] at hb hl hp ⊢
        simp only [List.getElem?_cons_zero, Option.some.injEq] at hd
        obtain ⟨ha, hc⟩ := hsame2 i (Or.inl (by omega))
        rw [hb0] at hb
        rw [hl0] at hl
        rw [hp0] at hp
        simp only [Option.some.injEq] at hb hl hp
        rw [ha, hc, hb1, hm1, hb, hl, hp, hd]
        exact ⟨rfl, rfl⟩
      | succ k' =>
        have hidx : i + (k' + 1) = i + 1 + k' := by omega
        rw [hidx] at hb hl hp ⊢
        simp only [List.getElem?_cons_succ] at hd
        obtain ⟨hc, hd'⟩ := hother1 (i + 1 + k') (by omega)
        exact hupd2 k' d b l preset hd (hc.trans hb) (hd'.trans hl) hp

theorem segmentEstimate_of_push (w : World) (seg : HlsSegment) (r : Nat)
    (transcoded : List Bytes) (d : Bytes)
    (hpush : w.PushSegment seg.SeqNo seg.Duration seg.Data = .ok transcoded)
    (hd : transcoded[r]? = some d) :
    segmentEstimate w seg r = (estimateBandwidth d seg.Duration).getD 0 := by
  simp [segmentEstimate, transcodedData, hpush, List.getD, hd]

theorem segmentLoop_playlist (w : World) (dst : GoString) (names : List GoString) :
    ∀ (segs : List HlsSegment) (st : LoopState),
      (∀ s ∈ segs, PushedAndWritten w dst names s) →
      ((∀ s ∈ segs, 1000000000 ≤ s.Duration) ∨
        ∀ (r : Nat) (b : Int), st.bandwidths[r]? = some b → b ≠ 0) →
      st.bandwidths.length = names.length → st.mediaSegments.length = names.length →
      ∃ st', (∀ tail, segmentLoop w dst names true (segs ++ tail) st
                = segmentLoop w dst names true tail st') ∧
        st'.consumed = st.consumed + segs.length ∧
        st'.bandwidths.length = names.length ∧
        st'.mediaSegments.length = names.length ∧
        (∀ (r : Nat) (b : Int) (l : List MediaSegment) (name : GoString),
          st.bandwidths[r]? = some b → st.mediaSegments[r]? = some l →
          names[r]? = some name →
          st'.bandwidths[r]?
            = some (if b = 0 then firstNonzero (segs.map fun s => segmentEstimate w s r)
                    else b) ∧
          st'.mediaSegments[r]? = some (l ++ segs.map (mkMediaSegment dst name))) := by
  intro segs
  induction segs with
  | nil =>
    intro st _ _ hbl hml
    refine ⟨st, fun tail => rfl, rfl, hbl, hml, ?_⟩
    intro r b l name hb hl _
    refine ⟨?_, by simp [hl]⟩
    rw [hb]
    by_cases hb0 : b = 0
    · simp [firstNonzero, hb0]
    · simp [hb0]
  | cons s segs' ih =>
    intro st hgood hdur hbl hml
    obtain ⟨hErr, t, hpush, htlen, hwrite⟩ := hgood s (List.mem_cons_self _ _)
    have hsecs : durationSeconds s.Duration ≠ 0 ∨
        ∀ (r : Nat) (b : Int), st.bandwidths[r]? = some b → b ≠ 0 := by
      rcases hdur with h | h
      · exact Or.inl (durationSeconds_ne_zero s.Duration (h s (List.mem_cons_self _ _)))
      · exact Or.inr h
    have hyp : ∀ (k : Nat) (d : Bytes), t[k]? = some d →
        ∃ preset, names[0 + k]? = some preset ∧
          w.WriteFile (addPathFrom dst (segFileName dst preset s.SeqNo)) d = none := by
      intro k d hd
      have hk : k < names.length := by
        rcases List.getElem?_eq_some.mp hd with ⟨h, _⟩; omega
      refine ⟨names[k], by simp [List.getElem?_eq_getElem hk], ?_⟩
      exact hwrite k names[k] d (List.getElem?_eq_getElem hk) hd
    obtain ⟨st1, h1, hc1, hbl1, hml1, -, hupd1⟩ :=
      rangeTranscoded_playlist w dst names s t 0
        { st with consumed := st.consumed + 1, err := none } hsecs hyp
        (by simp only [Nat.zero_add]; omega) (by simp only [Nat.zero_add]; omega)
    simp only at hc1 hbl1 hml1 hupd1
    have hdur1 : (∀ s' ∈ segs', 1000000000 ≤ s'.Duration) ∨
        ∀ (r : Nat) (b : Int), st1.bandwidths[r]? = some b → b ≠ 0 := by
      rcases hdur with h | h
      · exact Or.inl (fun s' hs' => h s' (List.mem_cons_of_mem _ hs'))
      · right
        intro r b' hr
        have hrlen : r < names.length := by
          rcases List.getElem?_eq_some.mp hr with ⟨hlt, _⟩; omega
        have hrb : st.bandwidths[r]? = some st.bandwidths[r] :=
          List.getElem?_eq_getElem (by omega)
        have hrl : st.mediaSegments[r]? = some st.mediaSegments[r] :=
          List.getElem?_eq_getElem (by omega)
        have hrt : t[r]? = some t[r] := List.getElem?_eq_getElem (by omega)
        have hne := h r _ hrb
        obtain ⟨hb1, -⟩ := hupd1 r t[r] _ _ names[r] hrt
          (by rw [Nat.zero_add]; exact hrb) (by rw [Nat.zero_add]; exact hrl)
          (by rw [Nat.zero_add]; exact List.getElem?_eq_getElem hrlen)
        simp only [Nat.zero_add] at hb1
        rw [hb1] at hr
        simp only [hne, if_false, Option.some.injEq] at hr
        rw [← hr]
        exact hne
    obtain ⟨st2, h2, hc2, hbl2, hml2, hupd2⟩ :=
      ih st1 (fun s' hs' => hgood s' (List.mem_cons_of_mem _ hs')) hdur1 (by omega) (by omega)
    refine ⟨st2, ?_, by simp only [List.length_cons]; omega, hbl2, hml2, ?_⟩
    · intro tail
      rw [← h2 tail]
      simp only [List.cons_append, segmentLoop, hErr, hpush, if_true]
      rw [h1]
      rfl
    · intro r b l name hb hl hn
      have hr : r < t.length := by
        rcases List.getElem?_eq_some.mp hn with ⟨h, _⟩; omega
      have hd : t[r]? = some t[r] := List.getElem?_eq_getElem hr
      have hest := segmentEstimate_of_push w s r t t[r] hpush hd
      obtain ⟨hb1, hm1⟩ := hupd1 r t[r] b l name hd
        (by simpa using hb) (by simpa using hl) (by simpa using hn)
      simp only [Nat.zero_add] at hb1 hm1
      obtain ⟨hb2, hm2⟩ := hupd2 r _ _ name hb1 hm1 hn
      refine ⟨?_, by rw [hm2]; simp⟩
      rw [hb2, ← hest]
      simp only [List.map_cons, firstNonzero]
      by_cases hb0 : b = 0
      · simp only [hb0, if_true]
      · simp only [hb0, if_false]

theorem firstNonzero_singleton (v : Int) : firstNonzero [v] = v := by
  by_cases h : v = 0 <;> simp [firstNonzero, h]

theorem firstNonzero_cons_ne_zero (v : Int) (vs : List Int) (h : v ≠ 0) :
    firstNonzero (v :: vs) = v := by
  simp [firstNonzero, h]

theorem transcode_playlist_final (w : World) (dst : GoString) (presets : List GoString)
    (profiles : List Profile) (segs tail : List HlsSegment)
    (hcreate : ∃ id, w.CreateStreamEx presets profiles = .ok id)
    (hstart : w.StartSegmenting = none)
    (hext : filepath.Ext dst = ".m3u8".toList)
    (hin : w.segmentsIn = segs ++ tail)
    (htail : tail = [] ∨ ∃ e rest, tail = e :: rest ∧ e.Err = some .EOF)
    (hgood : ∀ s ∈ segs, PushedAndWritten w dst (renditionNames presets profiles) s)
    (hdur : DurationsSafe w (renditionNames presets profiles) segs) :
    ∃ st, (transcode w dst presets profiles).final = some st ∧
      st.bandwidths.length = (renditionNames presets profiles).length ∧
      st.mediaSegments.length = (renditionNames presets profiles).length ∧
      ∀ (r : Nat) (name : GoString), (renditionNames presets profiles)[r]? = some name →
        st.bandwidths[r]? = some (firstNonzero (segs.map fun s => segmentEstimate w s r)) ∧
        st.mediaSegments[r]? = some (segs.map (mkMediaSegment dst name)) := by
  obtain ⟨id, hid⟩ := hcreate
  have hloopAll : ∃ st1,
      (∀ tail, segmentLoop w dst (renditionNames presets profiles) true (segs ++ tail)
          (initialState true (renditionNames presets profiles).length)
        = segmentLoop w dst (renditionNames presets profiles) true tail st1) ∧
      st1.bandwidths.length = (renditionNames presets profiles).length ∧
      st1.mediaSegments.length = (renditionNames presets profiles).length ∧
      ∀ (r : Nat) (name : GoString), (renditionNames presets profiles)[r]? = some name →
        st1.bandwidths[r]? = some (firstNonzero (segs.map fun s => segmentEstimate w s r)) ∧
        st1.mediaSegments[r]? = some (segs.map (mkMediaSegment dst name)) := by
    have hinit0 : ∀ (r : Nat), r < (renditionNames presets profiles).length →
        (initialState true (renditionNames presets profiles).length).bandwidths[r]? = some 0 ∧
        (initialState true (renditionNames presets profiles).length).mediaSegments[r]?
          = some [] := by
      intro r hr
      simp [initialState, List.getElem?_replicate, hr]
    rcases hdur with hall | ⟨first, later, hsegs, hfirst, hest⟩
    · obtain ⟨st1, hloop, -, hbl, hml, hupd⟩ :=
        segmentLoop_playlist w dst (renditionNames presets profiles) segs
          (initialState true (renditionNames presets profiles).length)
          hgood (Or.inl hall) (by simp [initialState]) (by simp [initialState])
      refine ⟨st1, hloop, hbl, hml, ?_⟩
      intro r name hn
      have hr : r < (renditionNames presets profiles).length := by
        rcases List.getElem?_eq_some.mp hn with ⟨h, _⟩; exact h
      have := hupd r 0 [] name (hinit0 r hr).1 (hinit0 r hr).2 hn
      simpa using this
    · subst hsegs
      obtain ⟨st1, hloop1, -, hbl1, hml1, hupd1⟩ :=
        segmentLoop_playlist w dst (renditionNames presets profiles) [first]
          (initialState true (renditionNames presets profiles).length)
          (fun s hs => hgood s (by
            simp only [List.mem_singleton] at hs
            rw [hs]; exact List.mem_cons_self _ _))
          (Or.inl (fun s hs => by
            simp only [List.mem_singleton] at hs
            rw [hs]; exact hfirst))
          (by simp [initialState]) (by simp [initialState])
      have hpoint1 : ∀ (r : Nat) (name : GoString),
          (renditionNames presets profiles)[r]? = some name →
          st1.bandwidths[r]? = some (segmentEstimate w first r) ∧
          st1.mediaSegments[r]? = some [mkMediaSegment dst name first] := by
        intro r name hn
        have hr : r < (renditionNames presets profiles).length := by
          rcases List.getElem?_eq_some.mp hn with ⟨h, _⟩; exact h
        have := hupd1 r 0 [] name (hinit0 r hr).1 (hinit0 r hr).2 hn
        simpa [firstNonzero_singleton] using this
      have hnz : ∀ (r : Nat) (b : Int), st1.bandwidths[r]? = some b → b ≠ 0 := by
        intro r b hr
        have hrlen : r < (renditionNames presets profiles).length := by
          rcases List.getElem?_eq_some.mp hr with ⟨hlt, _⟩; omega
        rw [(hpoint1 r _ (List.getElem?_eq_getElem hrlen)).1] at hr
        simp only [Option.some.injEq] at hr
        rw [← hr]
        exact hest r hrlen
      obtain ⟨st2, hloop2, -, hbl2, hml2, hupd2⟩ :=
        segmentLoop_playlist w dst (renditionNames presets profiles) later st1
          (fun s hs => hgood s (List.mem_cons_of_mem _ hs)) (Or.inr hnz) hbl1 hml1
      refine ⟨st2, ?_, hbl2, hml2, ?_⟩
      · intro tail
        rw [← hloop2 tail]
        have := hloop1 (later ++ tail)
        simpa using this
      · intro r name hn
        have hr : r < (renditionNames presets profiles).length := by
          rcases List.getElem?_eq_some.mp hn with ⟨h, _⟩; exact h
        obtain ⟨hb1, hm1⟩ := hpoint1 r name hn
        obtain ⟨hb2, hm2⟩ := hupd2 r _ _ name hb1 hm1 hn
        refine ⟨?_, by rw [hm2]; simp⟩
        rw [hb2]
        simp only [hest r hr, if_false, List.map_cons,
          firstNonzero_cons_ne_zero _ _ (hest r hr)]
  obtain ⟨st1, hloop, hbl, hml, hpoint⟩ := hloopAll
  rcases htail with ht | ⟨e, rest, ht, he⟩
  · refine ⟨st1, ?_, hbl, hml, hpoint⟩
    have := hloop []
    simp only [List.append_nil] at this
    subst ht
    simp only [List.append_nil] at hin
    simp only [transcode, hid, hstart, hext, decide_True, if_true, hin, this, segmentLoop]
  · refine ⟨{ st1 with consumed := st1.consumed + 1 }, ?_, hbl, hml, hpoint⟩
    have := hloop (e :: rest)
    subst ht
    simp only [transcode, hid, hstart, hext, decide_True, if_true, hin, this, segmentLoop, he]

/-- C5, as stated, fails.  One rendition, two segments of two seconds: the
first buffer has 100 bytes, so the value computed from the first segment alone
is 0; the second buffer has 250 bytes, and after the whole sequence the
bandwidth recorded is 1000, computed from the second segment. -/
theorem bandwidth_recomputed_after_zero :
    estimateBandwidth (List.replicate 100 0) 2000000000 = some 0 ∧
      ((transcode
          (quietWorld [{ SeqNo := 0, Duration := 2000000000 }]
            (fun _ => .ok [List.replicate 100 0]))
          "out.m3u8".toList ["p".toList] []).final.map fun st => st.bandwidths) = some [0] ∧
      ((transcode
          (quietWorld [{ SeqNo := 0, Duration := 2000000000 },
                       { SeqNo := 1, Pts := 2000000000, Duration := 2000000000 }]
            (fun n => if n = 0 then .ok [List.replicate 100 0]
                      else .ok [List.replicate 250 0]))
          "out.m3u8".toList ["p".toList] []).final.map fun st => st.bandwidths)
        = some [1000] := by
  decide

/-- C5, amended: in playlist mode, when every segment of the sequence is
pushed with one buffer per rendition and written to its file, and no estimate
divides by zero (every segment lasts at least one second, or the first one does
and gives every rendition a non-zero estimate), the bandwidth recorded for a
rendition after the whole sequence is the estimate of the first segment whose
estimate is not zero (0 if there is none); in particular, when the estimate of
the first segment is not zero, it is that estimate, whatever the later
segments are. -/
theorem bandwidth_frozen (w : World) (dst : GoString) (presets : List GoString)
    (profiles : List Profile) (segs tail : List HlsSegment)
    (hcreate : ∃ id, w.CreateStreamEx presets profiles = .ok id)
    (hstart : w.StartSegmenting = none)
    (hext : filepath.Ext dst = ".m3u8".toList)
    (hin : w.segmentsIn = segs ++ tail)
    (htail : tail = [] ∨ ∃ e rest, tail = e :: rest ∧ e.Err = some .EOF)
    (hgood : ∀ s ∈ segs, PushedAndWritten w dst (renditionNames presets profiles) s)
    (hdur : DurationsSafe w (renditionNames presets profiles) segs) :
    ∃ st, (transcode w dst presets profiles).final = some st ∧
      ∀ (r : Nat), r < (renditionNames presets profiles).length →
        st.bandwidths[r]? = some (firstNonzero (segs.map fun s => segmentEstimate w s r)) ∧
        (∀ first later, segs = first :: later → segmentEstimate w first r ≠ 0 →
          st.bandwidths[r]? = some (segmentEstimate w first r)) := by
  obtain ⟨st, hfinal, -, -, hpoint⟩ :=
    transcode_playlist_final w dst presets profiles segs tail hcreate hstart hext hin htail
      hgood hdur
  refine ⟨st, hfinal, ?_⟩
  intro r hr
  obtain ⟨hb, -⟩ := hpoint r _ (List.getElem?_eq_getElem hr)
  refine ⟨hb, ?_⟩
  intro first later hsegs hne
  rw [hb, hsegs, List.map_cons, firstNonzero_cons_ne_zero _ _ hne]

/-- C5 amended, on a segment of two seconds whose buffer has 250 bytes,
followed by a segment of half a second whose buffer has 100 bytes. -/
theorem bandwidth_frozen_witness :
    ∃ st, (transcode
        (quietWorld [{ SeqNo := 0, Duration := 2000000000 },
                     { SeqNo := 1, Pts := 2000000000, Duration := 500000000 }]
          (fun n => if n = 0 then .ok [List.replicate 250 0] else .ok [List.replicate 100 0]))
        "out.m3u8".toList ["p".toList] []).final = some st ∧
      st.bandwidths[0]? = some 1000 := by
  obtain ⟨st, hfinal, hb⟩ := bandwidth_frozen
    (quietWorld [{ SeqNo := 0, Duration := 2000000000 },
                 { SeqNo := 1, Pts := 2000000000, Duration := 500000000 }]
      (fun n => if n = 0 then .ok [List.replicate 250 0] else .ok [List.replicate 100 0]))
    "out.m3u8".toList ["p".toList] []
    [{ SeqNo := 0, Duration := 2000000000 },
     { SeqNo := 1, Pts := 2000000000, Duration := 500000000 }] []
    ⟨_, rfl⟩ rfl (by decide) rfl (Or.inl rfl)
    (by
      intro s hs
      simp only [List.mem_cons, List.mem_singleton, List.not_mem_nil, or_false] at hs
      rcases hs with hs | hs <;> subst hs
      · exact ⟨rfl, _, rfl, rfl, fun _ _ _ _ _ => rfl⟩
      · exact ⟨rfl, _, rfl, rfl, fun _ _ _ _ _ => rfl⟩)
    (Or.inr ⟨_, _, rfl, by decide, by decide⟩)
  refine ⟨st, hfinal, ?_⟩
  have := (hb 0 (by decide)).2 _ _ rfl (by decide)
  rw [this]
  decide

/-- C7, as stated, fails.  One rendition and one segment, pushed successfully
with one buffer.  When the segment lasts half a second, the bandwidth estimate
divides by zero whole seconds and `transcode` panics before any descriptor is
appended.  (When the segment lasts two seconds and its file cannot be written,
the descriptor is appended first and `transcode` then panics at `panic(err)`:
that run ends without a playlist as well.) -/
theorem playlist_segment_panics :
    (quietWorld [{ SeqNo := 0, Duration := 500000000 }]
        (fun _ => .ok [List.replicate 100 0])).PushSegment 0 500000000 []
      = .ok [List.replicate 100 0] ∧
    transcode
        (quietWorld [{ SeqNo := 0, Duration := 500000000 }]
          (fun _ => .ok [List.replicate 100 0]))
        "out.m3u8".toList ["p".toList] []
      = ⟨.panicked, none⟩ ∧
    transcode
        { quietWorld [{ SeqNo := 0, Duration := 2000000000 }]
            (fun _ => .ok [List.replicate 100 0]) with
          WriteFile := fun _ _ => some (.external 2) }
        "out.m3u8".toList ["p".toList] []
      = ⟨.panicked, none⟩ := by
  decide

/-- C7, amended: in playlist mode, for every input sequence of `n` segments
with non-negative sequence numbers that are pushed successfully with one
transcoded buffer per rendition and written to their files, and whose
durations let no estimate divide by zero (every segment lasts at least one
second, or the first one does and gives every rendition a non-zero
estimate), the loop ends without panic and each rendition's descriptor list
has length `n`; its `i`-th descriptor carries the sequence id and the duration
of the `i`-th input segment and the URI
`<base>_<renditionName>_<sequenceNumber>.ts`; hence when the sequence numbers
are `0, 1, .., n-1` the sequence ids of the list are `0, 1, .., n-1`, and all
renditions' lists have the same length. -/
theorem playlist_descriptors (w : World) (dst : GoString) (presets : List GoString)
    (profiles : List Profile) (segs tail : List HlsSegment)
    (hcreate : ∃ id, w.CreateStreamEx presets profiles = .ok id)
    (hstart : w.StartSegmenting = none)
    (hext : filepath.Ext dst = ".m3u8".toList)
    (hin : w.segmentsIn = segs ++ tail)
    (htail : tail = [] ∨ ∃ e rest, tail = e :: rest ∧ e.Err = some .EOF)
    (hgood : ∀ s ∈ segs, PushedAndWritten w dst (renditionNames presets profiles) s)
    (hdur : DurationsSafe w (renditionNames presets profiles) segs) :
    ∃ st, (transcode w dst presets profiles).final = some st ∧
      st.mediaSegments.length = (renditionNames presets profiles).length ∧
      ∀ (r : Nat) (name : GoString), (renditionNames presets profiles)[r]? = some name →
        ∃ l, st.mediaSegments[r]? = some l ∧ l.length = segs.length ∧
          (∀ (i : Nat) (seg : HlsSegment), segs[i]? = some seg →
            ∃ m, l[i]? = some m ∧ m.Duration = seg.Duration ∧
              m.URI = getBase dst ++ '_' :: name ++ '_' :: strconv.Itoa seg.SeqNo ++ ".ts".toList ∧
              (0 ≤ seg.SeqNo → seg.SeqNo < 2 ^ 63 → (m.SeqId : Int) = seg.SeqNo)) ∧
          ((∀ (i : Nat) (seg : HlsSegment), segs[i]? = some seg → seg.SeqNo = (i : Int)) →
            segs.length ≤ 2 ^ 63 → l.map (fun m => m.SeqId) = List.range segs.length) := by
  obtain ⟨st, hfinal, -, hml, hpoint⟩ :=
    transcode_playlist_final w dst presets profiles segs tail hcreate hstart hext hin htail
      hgood hdur
  refine ⟨st, hfinal, hml, ?_⟩
  intro r name hn
  obtain ⟨-, hm⟩ := hpoint r name hn
  refine ⟨_, hm, by simp, ?_, ?_⟩
  · intro i seg hseg
    refine ⟨mkMediaSegment dst name seg, by simp [hseg], rfl, rfl, ?_⟩
    intro h0 h1
    simp only [mkMediaSegment]
    have : seg.SeqNo % 18446744073709551616 = seg.SeqNo := by omega
    rw [this]
    omega
  · intro hseq hlen
    apply List.ext_getElem?
    intro i
    simp only [List.map_map, List.getElem?_map]
    by_cases hi : i < segs.length
    · have hseg : segs[i]? = some segs[i] := List.getElem?_eq_getElem hi
      have hno := hseq i _ hseg
      rw [hseg, List.getElem?_range hi]
      simp only [Option.map_some', Function.comp_apply, mkMediaSegment, hno, Option.some.injEq]
      have : (i : Int) % 18446744073709551616 = i := by omega
      rw [this]
      omega
    · rw [List.getElem?_eq_none (by omega), List.getElem?_eq_none (by simp; omega)]
      rfl

/-- C7 amended, on two renditions and two segments of two seconds. -/
theorem playlist_descriptors_witness :
    ∃ st, (transcode
        (quietWorld [{ SeqNo := 0, Duration := 2000000000 },
                     { SeqNo := 1, Pts := 2000000000, Duration := 2000000000 }]
          (fun _ => .ok [List.replicate 250 0, List.replicate 100 0]))
        "out.m3u8".toList ["p".toList, "q".toList] []).final = some st ∧
      st.mediaSegments.length = 2 := by
  obtain ⟨st, hfinal, hlen, -⟩ := playlist_descriptors
    (quietWorld [{ SeqNo := 0, Duration := 2000000000 },
                 { SeqNo := 1, Pts := 2000000000, Duration := 2000000000 }]
      (fun _ => .ok [List.replicate 250 0, List.replicate 100 0]))
    "out.m3u8".toList ["p".toList, "q".toList] []
    [{ SeqNo := 0, Duration := 2000000000 },
     { SeqNo := 1, Pts := 2000000000, Duration := 2000000000 }] []
    ⟨_, rfl⟩ rfl (by decide) rfl (Or.inl rfl)
    (by
      intro s hs
      simp only [List.mem_cons, List.mem_singleton, List.not_mem_nil, or_false] at hs
      rcases hs with hs | hs <;> subst hs
      · exact ⟨rfl, _, rfl, rfl, fun _ _ _ _ _ => rfl⟩
      · exact ⟨rfl, _, rfl, rfl, fun _ _ _ _ _ => rfl⟩)
    (Or.inl (by decide))
  exact ⟨st, hfinal, hlen⟩

/-! ## A failed push -/

theorem playlistSegment_shape (w : World) (dst : GoString) (presets : List GoString)
    (seg : HlsSegment) (i : Nat) (d : Bytes) (st st' : LoopState)
    (h : playlistSegment w dst presets seg i d st = .ok st') :
    st'.consumed = st.consumed ∧ st'.bandwidths.length = st.bandwidths.length := by
  unfold playlistSegment at h
  cases hb : st.bandwidths[i]? with
  | none => simp [hb] at h
  | some b =>
    simp only [hb] at h
    cases hp : presets[i]? with
    | none =>
      simp only [hp] at h
      split at h <;> simp at h
    | some preset =>
      cases hl : st.mediaSegments[i]? with
      | none =>
        simp only [hp, hl] at h
        split at h <;> simp at h
      | some l =>
        simp only [hp, hl] at h
        cases hw : w.WriteFile (addPathFrom dst (mkMediaSegment dst preset seg).URI) d with
        | some e =>
          simp only [hw] at h
          split at h <;> simp at h
        | none =>
          simp only [hw] at h
          by_cases hb0 : b = 0
          · simp only [hb0, if_true] at h
            cases he : estimateBandwidth d seg.Duration with
            | none => simp [he] at h
            | some v =>
              simp only [he, Except.ok.injEq] at h
              subst h
              simp
          · simp only [hb0, if_false, Except.ok.injEq] at h
            subst h
            simp

theorem containerSegment_shape (w : World) (nOut : Nat) (seg : HlsSegment) (i : Nat)
    (d : Bytes) (st st' : LoopState) (h : containerSegment w nOut seg i d st = .ok st') :
    st'.consumed = st.consumed ∧ st'.bandwidths.length = st.bandwidths.length := by
  unfold containerSegment at h
  simp only at h
  repeat' split at h
  all_goals first
    | (simp only [Except.ok.injEq] at h; subst h; exact ⟨rfl, rfl⟩)
    | simp at h

theorem rangeTranscoded_shape (body : Nat → Bytes → LoopState → Except Outcome LoopState)
    (hbody : ∀ i d st st', body i d st = .ok st' →
      st'.consumed = st.consumed ∧ st'.bandwidths.length = st.bandwidths.length) :
    ∀ (ds : List Bytes) (i : Nat) (st st' : LoopState),
      rangeTranscoded body i ds st = .ok st' →
      st'.consumed = st.consumed ∧ st'.bandwidths.length = st.bandwidths.length := by
  intro ds
  induction ds with
  | nil =>
    intro i st st' h
    simp only [rangeTranscoded, Except.ok.injEq] at h
    subst h
    exact ⟨rfl, rfl⟩
  | cons d ds' ih =>
    intro i st st' h
    simp only [rangeTranscoded] at h
    cases hb : body i d st with
    | error o => simp [hb] at h
    | ok st1 =>
      simp only [hb] at h
      obtain ⟨h1, h2⟩ := hbody i d st st1 hb
      obtain ⟨h3, h4⟩ := ih (i + 1) st1 st' h
      exact ⟨h3.trans h1, h4.trans h2⟩

theorem segmentLoop_prefix (w : World) (dst : GoString) (names : List GoString)
    (mode : Bool) :
    ∀ (pre : List HlsSegment) (st st1 : LoopState),
      (∀ s ∈ pre, s.Err = none ∧ ∃ t, w.PushSegment s.SeqNo s.Duration s.Data = .ok t) →
      segmentLoop w dst names mode pre st = .ok st1 →
      (∀ tail, segmentLoop w dst names mode (pre ++ tail) st
        = segmentLoop w dst names mode tail st1) ∧
      st1.consumed = st.consumed + pre.length ∧
      st1.bandwidths.length = st.bandwidths.length := by
  intro pre
  induction pre with
  | nil =>
    intro st st1 _ h
    simp only [segmentLoop, Except.ok.injEq] at h
    subst h
    exact ⟨fun tail => rfl, rfl, rfl⟩
  | cons s pre' ih =>
    intro st st1 hpre h
    obtain ⟨hErr, t, hpush⟩ := hpre s (List.mem_cons_self _ _)
    simp only [segmentLoop, hErr, hpush] at h
    cases hr : rangeTranscoded
        (if mode = true then playlistSegment w dst names s
          else containerSegment w names.length s) 0 t
        { st with consumed := st.consumed + 1, err := none } with
    | error o => simp [hr] at h
    | ok sta =>
      simp only [hr] at h
      have hshape := rangeTranscoded_shape
        (if mode = true then playlistSegment w dst names s
          else containerSegment w names.length s)
        (by
          intro i d st st' hb
          by_cases hm : mode = true
          · simp only [hm, if_true] at hb
            exact playlistSegment_shape w dst names s i d st st' hb
          · simp only [hm, if_false] at hb
            exact containerSegment_shape w names.length s i d st st' hb)
        t 0 _ sta hr
      simp only at hshape
      obtain ⟨h1, h2, h3⟩ := ih sta st1 (fun s' hs' => hpre s' (List.mem_cons_of_mem _ hs')) h
      refine ⟨?_, by simp only [List.length_cons]; omega, by omega⟩
      intro tail
      rw [← h1 tail]
      simp only [List.cons_append, segmentLoop, hErr, hpush]
      rw [hr]
      rfl

theorem masterVariants_isSome (dst : GoString) (profiles : List Profile)
    (bandwidths : List Int) :
    ∀ (names : List GoString) (i : Nat),
      (profiles.length = 0 ∨ i + names.length ≤ profiles.length) →
      i + names.length ≤ bandwidths.length →
      ∃ vs, masterVariants dst profiles bandwidths i names = some vs := by
  intro names
  induction names with
  | nil => intro i _ _; exact ⟨[], rfl⟩
  | cons pn rest ih =>
    intro i hp hb
    simp only [List.length_cons] at hp hb
    obtain ⟨vs, hvs⟩ := ih (i + 1) (by omega) (by omega)
    have hbi : bandwidths[i]? = some bandwidths[i] := List.getElem?_eq_getElem (by omega)
    rcases hp with hp | hp
    · have hlen : ¬ profiles.length > 0 := by omega
      simp only [masterVariants, hlen, if_false, hbi, hvs]
      exact ⟨_, rfl⟩
    · have hlen : profiles.length > 0 := by omega
      have hpi : profiles[i]? = some profiles[i] := List.getElem?_eq_getElem (by omega)
      simp only [masterVariants, hlen, if_true, hpi, hbi, hvs]
      exact ⟨_, rfl⟩

theorem finish_playlist_not_error (w : World) (dst : GoString) (names : List GoString)
    (profiles : List Profile) (st : LoopState) (e : GoError) :
    finish w dst names profiles true st ≠ .returned (some e) := by
  simp only [finish, if_true]
  split
  · simp
  · split
    · simp
    · split <;> simp

theorem segmentLoop_failure (w : World) (dst : GoString) (names : List GoString)
    (mode : Bool) (bad : HlsSegment) (rest : List HlsSegment) (st : LoopState) (e : GoError)
    (hbad : (bad.Err = some e ∧ e ≠ .EOF) ∨
      (bad.Err = none ∧ w.PushSegment bad.SeqNo bad.Duration bad.Data = .error e)) :
    segmentLoop w dst names mode (bad :: rest) st
      = .ok { st with consumed := st.consumed + 1, err := some e } := by
  rcases hbad with ⟨hErr, hne⟩ | ⟨hErr, hpush⟩
  · simp only [segmentLoop, hErr]
  · simp only [segmentLoop, hErr, hpush]

theorem initialState_shape (mode : Bool) (n : Nat) :
    (initialState mode n).consumed = 0 ∧
      (mode = true → (initialState mode n).bandwidths.length = n) := by
  cases mode <;> simp [initialState]

/-- C8, where the code departs from it.  Two segments are offered.  When the
first push fails, and when the first record of the source carries an error
other than end-of-stream, `transcode` receives one record, keeps the error in
its local variable `err` and returns `nil`, in playlist mode and in container
mode, where the claim states a non-nil error.  The failures before the loop
are returned: a failed `StartSegmenting` returns its error, and a failed
`os.Create` returns it wrapped. -/
theorem push_failure_returns_nil :
    transcode
        (quietWorld [{ SeqNo := 0, Duration := 2000000000 },
                     { SeqNo := 1, Pts := 2000000000, Duration := 2000000000 }]
          (fun _ => .error (.external 1)))
        "out.m3u8".toList ["p".toList] []
      = ⟨.returned none,
          some { err := some (.external 1), bandwidths := [0], mediaSegments := [[]],
                 consumed := 1 }⟩ ∧
    transcode
        (quietWorld [{ SeqNo := 0, Duration := 2000000000 },
                     { SeqNo := 1, Pts := 2000000000, Duration := 2000000000 }]
          (fun _ => .error (.external 1)))
        "out.ts".toList ["p".toList] []
      = ⟨.returned none, some { err := some (.external 1), consumed := 1 }⟩ ∧
    transcode
        (quietWorld [{ SeqNo := 0, Duration := 2000000000, Err := some (.external 4) },
                     { SeqNo := 1, Pts := 2000000000, Duration := 2000000000 }]
          (fun _ => .ok [List.replicate 100 0]))
        "out.m3u8".toList ["p".toList] []
      = ⟨.returned none,
          some { err := some (.external 4), bandwidths := [0], mediaSegments := [[]],
                 consumed := 1 }⟩ ∧
    transcode
        (quietWorld [{ SeqNo := 0, Duration := 2000000000, Err := some (.external 4) },
                     { SeqNo := 1, Pts := 2000000000, Duration := 2000000000 }]
          (fun _ => .ok [List.replicate 100 0]))
        "out.ts".toList ["p".toList] []
      = ⟨.returned none, some { err := some (.external 4), consumed := 1 }⟩ ∧
    transcode
        { quietWorld [{ SeqNo := 0, Duration := 2000000000 },
                      { SeqNo := 1, Pts := 2000000000, Duration := 2000000000 }]
            (fun _ => .error (.external 1)) with
          StartSegmenting := some (.external 3) }
        "out.m3u8".toList ["p".toList] []
      = ⟨.returned (some (.external 3)), none⟩ ∧
    transcode
        { quietWorld [{ SeqNo := 0, Duration := 2000000000 },
                      { SeqNo := 1, Pts := 2000000000, Duration := 2000000000 }]
            (fun _ => .error (.external 1)) with
          Create := fun _ => some (.external 5) }
        "out.ts".toList ["p".toList] []
      = ⟨.returned (some (.wrapped "can't create out file" (.external 5))), none⟩ := by
  decide

/-- The run of `transcode` after a failed push or a source error, for every
job.  In a job in which the session is created, segmenting starts and (in
container mode) the output files are created, let the first records of the
source be segments that are pushed successfully and processed without panic
or return, and let the next record carry an error marker other than
end-of-stream, or let its push fail, with error `e`.  Then `transcode` stops
consuming further segments (it has received exactly one record more), keeps
`e` in its variable `err`, and goes on to the final steps; `e` is not
returned.  In playlist mode no error is returned from there, and the result
is `nil` when the playlists are written; in container mode any error returned
is the error of a `Close`, and the result is `nil` when every writer is
closed. -/
theorem failure_not_returned (w : World) (dst : GoString) (presets : List GoString)
    (profiles : List Profile) (pre rest : List HlsSegment) (bad : HlsSegment) (e : GoError)
    (st1 : LoopState)
    (hcreate : ∃ id, w.CreateStreamEx presets profiles = .ok id)
    (hstart : w.StartSegmenting = none)
    (hfiles : filepath.Ext dst ≠ ".m3u8".toList →
      ∀ i, i < (renditionNames presets profiles).length →
        w.Create (makeDstName dst (i : Int) ((renditionNames presets profiles).length : Int))
          = none)
    (hin : w.segmentsIn = pre ++ bad :: rest)
    (hpre : ∀ s ∈ pre, s.Err = none ∧ ∃ t, w.PushSegment s.SeqNo s.Duration s.Data = .ok t)
    (hloop : segmentLoop w dst (renditionNames presets profiles)
        (decide (filepath.Ext dst = ".m3u8".toList)) pre
        (initialState (decide (filepath.Ext dst = ".m3u8".toList))
          (renditionNames presets profiles).length) = .ok st1)
    (hbad : (bad.Err = some e ∧ e ≠ .EOF) ∨
      (bad.Err = none ∧ w.PushSegment bad.SeqNo bad.Duration bad.Data = .error e)) :
    ∃ st, (transcode w dst presets profiles).final = some st ∧
      st.consumed = pre.length + 1 ∧ st.err = some e ∧
      (filepath.Ext dst = ".m3u8".toList →
        (∀ e', (transcode w dst presets profiles).outcome ≠ .returned (some e')) ∧
        ((profiles.length = 0 ∨ (renditionNames presets profiles).length ≤ profiles.length) →
          (∀ data, w.WriteFile dst data = none) →
          (∀ name ∈ renditionNames presets profiles, ∀ data,
            w.WriteFile (makeMediaPlaylistDstName dst name) data = none) →
          (transcode w dst presets profiles).outcome = .returned none)) ∧
      (filepath.Ext dst ≠ ".m3u8".toList →
        (∀ e', (transcode w dst presets profiles).outcome = .returned (some e') →
          ∃ i, w.Close i = some e') ∧
        ((∀ i, w.Close i = none) →
          (transcode w dst presets profiles).outcome = .returned none)) := by
  obtain ⟨id, hid⟩ := hcreate
  obtain ⟨hdecomp, hcons, hbl⟩ := segmentLoop_prefix w dst (renditionNames presets profiles)
    (decide (filepath.Ext dst = ".m3u8".toList)) pre _ st1 hpre hloop
  obtain ⟨hc0, hb0⟩ := initialState_shape (decide (filepath.Ext dst = ".m3u8".toList))
    (renditionNames presets profiles).length
  have hrun := (hdecomp (bad :: rest)).trans
    (segmentLoop_failure w dst (renditionNames presets profiles)
      (decide (filepath.Ext dst = ".m3u8".toList)) bad rest st1 e hbad)
  rw [← hin] at hrun
  by_cases hmode : filepath.Ext dst = ".m3u8".toList
  · have hT : transcode w dst presets profiles
        = ⟨finish w dst (renditionNames presets profiles) profiles true
            { st1 with consumed := st1.consumed + 1, err := some e },
          some { st1 with consumed := st1.consumed + 1, err := some e }⟩ := by
      simp only [hmode, decide_True] at hrun
      simp only [transcode, hid, hstart, hmode, decide_True, if_true, hrun]
    refine ⟨_, by rw [hT], by simp only; omega, rfl, ?_, fun h => absurd hmode h⟩
    intro _
    rw [hT]
    refine ⟨fun e' => finish_playlist_not_error _ _ _ _ _ e', ?_⟩
    intro hprof hmaster hmedia
    have hlen : st1.bandwidths.length = (renditionNames presets profiles).length := by
      rw [hbl]; exact hb0 (by simp [hmode])
    obtain ⟨vs, hvs⟩ := masterVariants_isSome dst profiles st1.bandwidths
      (renditionNames presets profiles) 0 (by omega) (by omega)
    have hany : ((renditionNames presets profiles).zip st1.mediaSegments).any
        (fun x => (w.WriteFile (makeMediaPlaylistDstName dst x.1) (w.encodeMedia x.2)).isSome)
        = false := by
      rw [List.any_eq_false]
      intro x hx
      have hx1 : x.1 ∈ renditionNames presets profiles := (List.of_mem_zip hx).1
      simp [hmedia x.1 hx1]
    simp only [finish, if_true, hvs, hmaster]
    simp only [hany]
    rfl
  · have hcreated : (List.range (renditionNames presets profiles).length).findSome?
        (fun (i : Nat) => w.Create (makeDstName dst (i : Int)
          ((renditionNames presets profiles).length : Int))) = none := by
      rw [List.findSome?_eq_none_iff]
      intro i hi
      exact hfiles hmode i (List.mem_range.mp hi)
    have hT : transcode w dst presets profiles
        = ⟨finish w dst (renditionNames presets profiles) profiles false
            { st1 with consumed := st1.consumed + 1, err := some e },
          some { st1 with consumed := st1.consumed + 1, err := some e }⟩ := by
      simp only [hmode, decide_False] at hrun
      simp only [transcode, hid, hstart, hmode, decide_False, hcreated, hrun]
      rfl
    refine ⟨_, by rw [hT], by simp only; omega, rfl, fun h => absurd h hmode, ?_⟩
    intro _
    rw [hT]
    constructor
    · intro e' he'
      simp only [finish] at he'
      cases hc : (List.range (renditionNames presets profiles).length).findSome? w.Close with
      | none => simp [hc] at he'
      | some e2 =>
        simp only [hc, Bool.false_eq_true, if_false, Outcome.returned.injEq,
          Option.some.injEq] at he'
        subst he'
        obtain ⟨i, _, hi⟩ := List.exists_of_findSome?_eq_some hc
        exact ⟨i, hi⟩
    · intro hclose
      have hc : (List.range (renditionNames presets profiles).length).findSome? w.Close
          = none := by
        rw [List.findSome?_eq_none_iff]
        intro i _
        exact hclose i
      simp [finish, hc]

/-- The run after a failed push, on a job in playlist mode whose first push
fails. -/
theorem failure_not_returned_witness :
    ∃ st, (transcode
        (quietWorld [{ SeqNo := 0, Duration := 2000000000 },
                     { SeqNo := 1, Pts := 2000000000, Duration := 2000000000 }]
          (fun _ => .error (.external 1)))
        "out.m3u8".toList ["p".toList] []).final = some st ∧
      st.consumed = 1 ∧ st.err = some (.external 1) := by
  obtain ⟨st, hfinal, hcons, herr, -⟩ := failure_not_returned
    (quietWorld [{ SeqNo := 0, Duration := 2000000000 },
                 { SeqNo := 1, Pts := 2000000000, Duration := 2000000000 }]
      (fun _ => .error (.external 1)))
    "out.m3u8".toList ["p".toList] [] []
    [{ SeqNo := 1, Pts := 2000000000, Duration := 2000000000 }]
    { SeqNo := 0, Duration := 2000000000 } (.external 1)
    (initialState true 1)
    ⟨_, rfl⟩ rfl (fun _ _ _ => rfl) rfl (by simp) (by decide) (Or.inr ⟨rfl, rfl⟩)
  exact ⟨st, hfinal, hcons, herr⟩

/-! ## The media playlist named by the master playlist -/

theorem Ext_m3u8 (stem : GoString) : filepath.Ext (stem ++ ".m3u8".toList) = ".m3u8".toList := by
  have hrev : (stem ++ ".m3u8".toList).reverse = '8' :: 'u' :: '3' :: 'm' :: '.' :: stem.reverse := by
    rw [List.reverse_append]
    rfl
  rw [filepath.Ext, hrev]
  rfl

theorem Base_plain (stem : GoString) (hne : stem ≠ []) (hsep : '/' ∉ stem) :
    filepath.Base stem = stem := by
  have hall : ∀ x ∈ stem.reverse, (fun b => !filepath.isPathSeparator b) x = true := by
    intro x hx
    have hx' : x ∈ stem := List.mem_reverse.mp hx
    have : x ≠ '/' := fun e => hsep (e ▸ hx')
    simp [filepath.isPathSeparator, this]
  have hdrop : stem.reverse.dropWhile filepath.isPathSeparator = stem.reverse := by
    cases hr : stem.reverse with
    | nil => rfl
    | cons c cs =>
      have hc := hall c (by rw [hr]; exact List.mem_cons_self _ _)
      have hc' : ¬ filepath.isPathSeparator c = true := by simpa using hc
      rw [List.dropWhile_cons_of_neg hc']
  simp only [filepath.Base, hne, if_false, hdrop, List.reverse_reverse,
    List.takeWhile_eq_self_iff.mpr hall]

theorem Dir_plain (name : GoString) (hsep : '/' ∉ name) : filepath.Dir name = ['.'] := by
  have hall : ∀ x ∈ name.reverse, (fun b => !filepath.isPathSeparator b) x = true := by
    intro x hx
    have hx' : x ∈ name := List.mem_reverse.mp hx
    have : x ≠ '/' := fun e => hsep (e ▸ hx')
    simp [filepath.isPathSeparator, this]
  simp only [filepath.Dir, List.dropWhile_eq_nil_iff.mpr hall, List.reverse_nil, filepath.Clean]

theorem cleanLoop_plain (elem : GoString) (fuel : Nat) (hne : elem ≠ [])
    (hsep : '/' ∉ elem) (hdot : elem ≠ ['.']) (hdotdot : elem ≠ ['.', '.']) :
    filepath.cleanLoop false (fuel + 2) elem [] 0 = elem.reverse := by
  cases elem with
  | nil => exact absurd rfl hne
  | cons c cs =>
    have hc : filepath.isPathSeparator c = false := by
      have : c ≠ '/' := fun e => hsep (by simp [e])
      simp [filepath.isPathSeparator, this]
    have hall : ∀ x ∈ c :: cs, (fun b => !filepath.isPathSeparator b) x = true := by
      intro x hx
      have : x ≠ '/' := fun e => hsep (e ▸ hx)
      simp [filepath.isPathSeparator, this]
    have hhead : cs.head? ≠ some '/' := by
      intro h
      cases cs with
      | nil => simp at h
      | cons d ds =>
        simp only [List.head?_cons, Option.some.injEq] at h
        exact hsep (by simp [h])
    have h1 : ¬ (c = '.' ∧ (cs = [] ∨ cs.head? = some '/')) := by
      rintro ⟨hc1, hcs | hcs⟩
      · exact hdot (by rw [hc1, hcs])
      · exact hhead hcs
    have h2 : ¬ (c = '.' ∧ cs.head? = some '.' ∧ (cs.tail = [] ∨ cs.tail.head? = some '/')) := by
      rintro ⟨hc1, hcs, ht⟩
      cases cs with
      | nil => simp at hcs
      | cons d ds =>
        simp only [List.head?_cons, Option.some.injEq] at hcs
        simp only [List.tail_cons] at ht
        rcases ht with ht | ht
        · exact hdotdot (by rw [hc1, hcs, ht])
        · cases ds with
          | nil => simp at ht
          | cons e es =>
            simp only [List.head?_cons, Option.some.injEq] at ht
            exact hsep (by simp [ht])
    have htake := List.takeWhile_eq_self_iff.mpr hall
    have hdrop := List.dropWhile_eq_nil_iff.mpr hall
    simp only [filepath.cleanLoop, hc, Bool.false_eq_true, if_false, h1, h2, htake, hdrop]
    cases fuel <;> simp [filepath.cleanLoop]

theorem cleanLoop_dot_slash (n : Nat) (p out : List Char) (dotdot : Nat) :
    filepath.cleanLoop false (n + 2) ('.' :: '/' :: p) out dotdot
      = filepath.cleanLoop false n p out dotdot := by
  have hsepd : filepath.isPathSeparator '.' = false := by decide
  have hseps : filepath.isPathSeparator '/' = true := by decide
  rw [filepath.cleanLoop]
  simp only [hsepd, Bool.false_eq_true, if_false, List.head?_cons, or_true, and_self, if_true]
  rw [filepath.cleanLoop]
  simp only [hseps, if_true]

/-- For a destination that is a plain file name `<stem>.m3u8` with a non-empty
stem, the URI that the master playlist records for the rendition `pn`,
resolved against the destination's directory, is the path the media playlist
is written to: both are `<stem>_<pn>.m3u8`. -/
theorem media_playlist_uri_plain (stem pn : GoString) (hne : stem ≠ [])
    (hstem : '/' ∉ stem) (hpn : '/' ∉ pn) :
    addPathFrom (stem ++ ".m3u8".toList)
        (makeMediaPlaylistName (stem ++ ".m3u8".toList) pn ++ ".m3u8".toList)
      = stem ++ '_' :: pn ++ ".m3u8".toList ∧
    filepath.Clean (makeMediaPlaylistDstName (stem ++ ".m3u8".toList) pn)
      = stem ++ '_' :: pn ++ ".m3u8".toList := by
  have hext := Ext_m3u8 stem
  have htrim : strings.TrimSuffix (stem ++ ".m3u8".toList) ".m3u8".toList = stem :=
    TrimSuffix_append stem _
  have hm : '/' ∉ ".m3u8".toList := by decide
  have hdir : filepath.Dir (stem ++ ".m3u8".toList) = ['.'] :=
    Dir_plain _ (by simp only [List.mem_append, not_or]; exact ⟨hstem, hm⟩)
  obtain ⟨c, cs, hcs⟩ : ∃ c cs, stem = c :: cs := by
    cases stem with
    | nil => exact absurd rfl hne
    | cons c cs => exact ⟨c, cs, rfl⟩
  have hc : c ≠ '/' := fun e => hstem (by rw [hcs]; simp [e])
  generalize hE : stem ++ '_' :: pn ++ ".m3u8".toList = elem
  have hEne : elem ≠ [] := by rw [← hE, hcs]; simp
  have hEsep : '/' ∉ elem := by
    rw [← hE]
    simp only [List.mem_append, List.mem_cons, not_or]
    exact ⟨⟨hstem, by decide, hpn⟩, hm⟩
  have hElen : 7 ≤ elem.length := by
    rw [← hE, hcs]
    simp only [List.length_append, List.length_cons]
    have : ".m3u8".toList.length = 5 := by decide
    omega
  have hEdot : elem ≠ ['.'] := fun e => by rw [e] at hElen; simp at hElen
  have hEdd : elem ≠ ['.', '.'] := fun e => by rw [e] at hElen; simp at hElen
  have hloop := cleanLoop_plain elem
  obtain ⟨d, ds, hds⟩ : ∃ d ds, elem = d :: ds := by
    cases elem with
    | nil => exact absurd rfl hEne
    | cons d ds => exact ⟨d, ds, rfl⟩
  have hd : filepath.isPathSeparator d = false := by
    have : d ≠ '/' := fun e => hEsep (by rw [hds]; simp [e])
    simp [filepath.isPathSeparator, this]
  have hclean : filepath.Clean elem = elem := by
    have := hloop ds.length hEne hEsep hEdot hEdd
    rw [hds] at this ⊢
    simp only [filepath.Clean, hd, Bool.false_eq_true, if_false, this]
    simp
  have hjoin : filepath.Clean ('.' :: '/' :: elem) = elem := by
    have := hloop ds.length hEne hEsep hEdot hEdd
    rw [hds] at this ⊢
    have hsepd : filepath.isPathSeparator '.' = false := by decide
    simp only [filepath.Clean, hsepd, Bool.false_eq_true, if_false, List.length_cons]
    rw [cleanLoop_dot_slash (ds.length + 2) (d :: ds) [] 0, this]
    simp
  constructor
  · simp only [addPathFrom, makeMediaPlaylistName, hext, htrim, hdir, filepath.Join,
      Base_plain stem hne hstem]
    rw [hE]
    simpa using hjoin
  · simp only [makeMediaPlaylistDstName, hext, htrim]
    rw [hE]
    exact hclean

/-- C10 at destinations whose file stem is empty.  For `.m3u8` and the
rendition `p` the master playlist records `._p.m3u8`, which resolves to
`._p.m3u8` in the destination's directory, while the media playlist is written
to `_p.m3u8`; for `out/.m3u8` the master playlist records `out_p.m3u8`, which
resolves to `out/out_p.m3u8`, while the media playlist is written to
`out/_p.m3u8`.  For `out/v.m3u8` the two paths agree. -/
theorem media_playlist_uri_mismatch :
    (addPathFrom ".m3u8".toList (makeMediaPlaylistName ".m3u8".toList "p".toList ++ ".m3u8".toList)
        = "._p.m3u8".toList ∧
      filepath.Clean (makeMediaPlaylistDstName ".m3u8".toList "p".toList) = "_p.m3u8".toList) ∧
    (addPathFrom "out/.m3u8".toList
          (makeMediaPlaylistName "out/.m3u8".toList "p".toList ++ ".m3u8".toList)
        = "out/out_p.m3u8".toList ∧
      filepath.Clean (makeMediaPlaylistDstName "out/.m3u8".toList "p".toList)
        = "out/_p.m3u8".toList) ∧
    (addPathFrom "out/v.m3u8".toList
          (makeMediaPlaylistName "out/v.m3u8".toList "p".toList ++ ".m3u8".toList)
        = "out/v_p.m3u8".toList ∧
      filepath.Clean (makeMediaPlaylistDstName "out/v.m3u8".toList "p".toList)
        = "out/v_p.m3u8".toList) := by
  decide

end TranscodeCli
